import Mathlib

/-!
Verification of the CEC scraping/import scripts.

Shallow embedding of the Python sources `scrape_faculty.py`,
`scrapers/scrape_grants.py` and `import.py`.  Python `str` values are
modelled as `List Char` (ASCII semantics for the regex character classes
`\s`, `\d`, `\w`, `[A-Z]` and for `str.lower`/`str.strip`, which is the
character range the scraped pages use).  Fallible code returns `Option` /
`Except`; machine integers are `Int` / `Nat` (Python integers are
unbounded, so no wrap-around is modelled); Python `float` is modelled
exactly as an IEEE-754 binary64 value represented by the rational it
denotes, with explicit round-to-nearest-even.
-/

namespace CEC

/-- Python `str` modelled as a list of characters. -/
abbrev Str := List Char

/-- ASCII whitespace, modelling Python's `str.strip()` default set and the
regex class `\s` (space, tab, newline, carriage return, vertical tab,
form feed). -/
def isPyWS (c : Char) : Bool :=
  c = ' ' || c = '\t' || c = '\n' || c = '\r' || c = Char.ofNat 11 || c = Char.ofNat 12

/-- ASCII decimal digit, modelling the regex class `\d`. -/
def isDigitCh (c : Char) : Bool := '0' ≤ c && c ≤ '9'

/-- Value of a single ASCII digit character. -/
def dval (c : Char) : Nat := c.toNat - '0'.toNat

/-- ASCII word character, modelling the regex class `\w` (used through the
word-boundary assertion `\b`). -/
def isWordCh (c : Char) : Bool :=
  ('a' ≤ c && c ≤ 'z') || ('A' ≤ c && c ≤ 'Z') || isDigitCh c || c = '_'

/-- ASCII uppercase letter, the regex class `[A-Z]`. -/
def isUpperCh (c : Char) : Bool := 'A' ≤ c && c ≤ 'Z'

/-- Python `str.strip()`: remove leading and trailing whitespace. -/
def pyStrip (s : Str) : Str :=
  ((s.dropWhile isPyWS).reverse.dropWhile isPyWS).reverse

/-- Python `str.lower()` on the ASCII range. -/
def pyLower (s : Str) : Str :=
  s.map fun c => if 'A' ≤ c && c ≤ 'Z' then Char.ofNat (c.toNat + 32) else c

/-- Python `pat in s` substring test (`str.__contains__`): `pat` occurs at
some position of `s`. -/
def strContains (s pat : Str) : Bool :=
  (List.range (s.length + 1)).any fun i => pat.isPrefixOf (s.drop i)

/-- Python `s.split(sep)` for a single-character separator: splitting the
empty string yields `[""]`, and adjacent separators yield empty fields. -/
def pySplitOn (sep : Char) : Str → List Str
  | [] => [[]]
  | c :: t =>
    match pySplitOn sep t with
    | [] => if c = sep then [[], []] else [[c]]
    | h :: r => if c = sep then [] :: h :: r else (c :: h) :: r

/-- Count of occurrences of a character, modelling Python `s.count(c)` for a
single-character needle. -/
def countChar (c : Char) (s : Str) : Nat := s.countP (fun x => x = c)

/-- Python `str.replace(old, new)` for a single-character `old` replaced by
the empty string: removes every occurrence of the character. -/
def removeChar (c : Char) (s : Str) : Str := s.filter (fun x => x ≠ c)

/-- Join a list of strings with a separator, modelling Python `sep.join`. -/
def pyJoin (sep : Str) : List Str → Str
  | [] => []
  | [x] => x
  | x :: y :: r => x ++ sep ++ pyJoin sep (y :: r)

/-! ### Decimal digits of a natural number (Python `str(n)` / zero-padding) -/

/-- Little-endian decimal digits, with explicit fuel so that the kernel
can evaluate it (`n` itself is enough fuel since `n / 10 < n`). -/
def natDigitsLEAux : Nat → Nat → List Nat
  | 0, _ => []
  | _ + 1, 0 => []
  | fuel + 1, n + 1 => (n + 1) % 10 :: natDigitsLEAux fuel ((n + 1) / 10)

/-- Little-endian decimal digits of a natural number; `0` has no digits. -/
def natDigitsLE (n : Nat) : List Nat := natDigitsLEAux n n

/-- Character for a decimal digit value. -/
def digitCh (d : Nat) : Char := Char.ofNat ('0'.toNat + d)

/-- Python `str(n)` for a natural number: big-endian decimal digits. -/
def natToStr (n : Nat) : Str :=
  if n = 0 then ['0'] else ((natDigitsLE n).map digitCh).reverse

/-- Python `f"{n:0wd}"` for an integer: zero-pad to total width `w`, sign
first for a negative value. -/
def pyZFill (w : Nat) (n : Int) : Str :=
  let ds := natToStr n.natAbs
  let sign : Str := if n < 0 then ['-'] else []
  let pad := w - (sign.length + ds.length)
  sign ++ List.replicate pad '0' ++ ds

/-- Numeric value of a big-endian list of digit characters. -/
def digitsVal (s : Str) : Nat :=
  s.foldl (fun a c => 10 * a + dval c) 0

/-- Digits-with-underscores tail of Python `int(str)` parsing: after a first
digit has been consumed, the rest is digits, with a single underscore
allowed only between two digits. -/
def parseDigitsUAux (acc : Nat) : Str → Option Nat
  | [] => some acc
  | c :: t =>
    if isDigitCh c then parseDigitsUAux (10 * acc + dval c) t
    else if c = '_' then
      match t with
      | c2 :: t2 => if isDigitCh c2 then parseDigitsUAux (10 * acc + dval c2) t2 else none
      | [] => none
    else none

/-- Start of the digit grammar of `int(str)`: at least one digit. -/
def parseDigitsStart : Str → Option Nat
  | [] => none
  | c :: t => if isDigitCh c then parseDigitsUAux (dval c) t else none

/-- Python `int(str)` (ASCII model): optional surrounding whitespace, an
optional sign, then decimal digits with single underscores between digits;
`none` models a raised `ValueError`. -/
def pyIntParse (s : Str) : Option Int :=
  match pyStrip s with
  | [] => none
  | c :: t =>
    if c = '+' then (parseDigitsStart t).map (fun n : Nat => (n : Int))
    else if c = '-' then (parseDigitsStart t).map (fun n : Nat => -(n : Int))
    else (parseDigitsStart (c :: t)).map (fun n : Nat => (n : Int))

/-- Sequence a list of optional values, `none` if any is `none` (models a
list comprehension in which an element raises). -/
def seqOption : List (Option α) → Option (List α)
  | [] => some []
  | o :: t => o.bind fun x => (seqOption t).map fun xs => x :: xs

/-- Python `max` over a non-empty list given as head and tail. -/
def pyMaxList (n : Int) (t : List Int) : Int := t.foldl max n

/-! ## `scrape_faculty.py`: faculty IDs -/

/-- State of the faculty CSV as `get_next_faculty_id` sees it: the file is
missing, reading/parsing it raised (missing column, malformed CSV), or it
was read and its `faculty_id` column holds the given cell values. -/
inductive FacultyCsv where
  | missing
  | readError
  | table (ids : List Str)

/-- `get_next_faculty_id` (`scrape_faculty.py` lines 107-128): `1` for a
missing file, a read/parse exception, or an empty `faculty_id` column;
otherwise strip every `"F"` from each ID, parse with `int`, and return the
maximum plus one (a failed `int` is a caught `ValueError`, giving `1`). -/
def get_next_faculty_id : FacultyCsv → Int
  | .missing => 1
  | .readError => 1
  | .table ids =>
    match ids with
    | [] => 1
    | f :: r =>
      match seqOption ((f :: r).map fun fid => pyIntParse (removeChar 'F' fid)) with
      | none => 1
      | some [] => 1
      | some (n :: t) => pyMaxList n t + 1

/-- `format_faculty_id` (`scrape_faculty.py` lines 131-133):
`f"F{number:05d}"`. -/
def format_faculty_id (n : Int) : Str := 'F' :: pyZFill 5 n

/-- A well-formed faculty ID as the claim describes it: the prefix `F`
followed by at least one decimal digit. -/
def validFid (fid : Str) : Prop :=
  ∃ ds, fid = 'F' :: ds ∧ ds ≠ [] ∧ ∀ c ∈ ds, isDigitCh c = true

/-- Numeric suffix of a faculty ID: the value of the digits after `F`. -/
def fidValue (fid : Str) : Int := (digitsVal (fid.drop 1) : Int)

/-! ## `import.py` -/

/-- A dataframe column: its name and its cell values, in row order. -/
structure DFCol where
  name : String
  cells : List String
deriving DecidableEq

/-- Literal (regex-free) match of a pattern at the start of a string,
the building block of `re.search` for the anchored pattern used in
`import.py`. -/
def litMatchAt (pat s : Str) : Bool := pat.isPrefixOf s

/-- Python `re.search` for a pattern of the shape `^<literal>` (as in
`df.columns.str.contains("^Unnamed")`): every start position is tried, but
the `^` anchor (without `re.MULTILINE`) only succeeds at position `0`. -/
def reSearchCaretLit (pat : Str) (s : Str) : Bool :=
  (List.range (s.length + 1)).any fun i => i = 0 && litMatchAt pat (s.drop i)

/-- `clean_csv` (`import.py` lines 4-7) after the `pd.read_csv`: keep
exactly the columns whose name does not match `re.search("^Unnamed", name)`,
preserving order and cell values. -/
def clean_csv (df : List DFCol) : List DFCol :=
  df.filter fun col => ! reSearchCaretLit "Unnamed".toList col.name.toList

/-- The `cap_dept_rows` loop (`import.py` lines 21-34): for each
capabilities row `(capabilities_id, department_id)`, split the
`department_id` cell on commas, strip each piece, and append a pair
`(stripped capabilities_id, piece)` for each non-empty piece. -/
def cap_dept_rows (rows : List (Str × Str)) : List (Str × Str) :=
  rows.foldl
    (fun acc row =>
      let cap_id := pyStrip row.1
      let departments := pySplitOn ',' row.2
      departments.foldl
        (fun acc2 dept =>
          let dept_id := pyStrip dept
          if dept_id.isEmpty then acc2 else acc2 ++ [(cap_id, dept_id)])
        acc)
    []

/-! ## Error paths of the two scrapers (`scrape_faculty.py` lines 273-278,
`scrape_grants.py` lines 262-292) -/

/-- Outcome of `requests.get` in `scrape_faculty`: a raised
`requests.RequestException`, or a response with an HTTP status code and a
body. -/
inductive FetchResult where
  | exn
  | resp (status : Nat) (body : String)

/-- `response.raise_for_status()` raises `requests.HTTPError` (a
`RequestException`) exactly for client-error and server-error codes. -/
def raiseForStatusFails (status : Nat) : Bool :=
  (400 ≤ status && status < 500) || (500 ≤ status && status < 600)

/-- `scrape_faculty` (`scrape_faculty.py` lines 260-355) with the document
acquisition made explicit.  `parseBody` abstracts lines 280-355: the
BeautifulSoup traversal applied to a successfully fetched body (it calls
`parse_faculty_entry` on each paragraph).  The `try` block catches any
`RequestException` — including the `HTTPError` from `raise_for_status` —
and returns the empty list. -/
def scrape_faculty (parseBody : String → List α) : FetchResult → List α
  | .exn => []
  | .resp st body => if raiseForStatusFails st then [] else parseBody body

/-- Outcome of acquiring the grants HTML file in `scrape_grants_from_file`:
the file is absent, reading it raised, or its contents were read. -/
inductive FileRead where
  | absent
  | readError
  | content (s : String)

/-- `scrape_grants_from_file` (`scrape_grants.py` lines 262-292) with the
file system made explicit.  `parseHtml` abstracts `parse_html_content`
applied to the file contents.  A missing file or a read exception yields
the empty list. -/
def scrape_grants_from_file (parseHtml : String → List α) : FileRead → List α
  | .absent => []
  | .readError => []
  | .content s => parseHtml s

/-! ## `scrape_faculty.py`: `parse_faculty_entry` -/

/-- After at least one whitespace character: skip further whitespace and
require an ASCII uppercase letter (the `\s+(?=[A-Z])` continuation of the
first sentence-split alternative). -/
def wsUpperTail : Str → Bool
  | [] => false
  | c :: t => if isPyWS c then wsUpperTail t else isUpperCh c

/-- One or more whitespace characters followed by an uppercase letter:
what must follow a `.` for the first alternative of
`re.split(r'\.\s+(?=[A-Z])|\.(?=\s*$)', ...)` to match. -/
def wsRunThenUpper : Str → Bool
  | [] => false
  | c :: t => isPyWS c && wsUpperTail t

/-- Drop a (maximal) whitespace run: what `\s+` consumes. -/
def dropWs (s : Str) : Str := s.dropWhile isPyWS

/-- All characters are whitespace: the lookahead `(?=\s*$)`. -/
def allWs (s : Str) : Bool := s.all isPyWS

/-- The scan behind `re.split(r'\.\s+(?=[A-Z])|\.(?=\s*$)', entry_text)`
(`scrape_faculty.py` line 147), one character at a time: with `skip` set
the scanner is inside the whitespace run consumed by `\.\s+(?=[A-Z])` and
drops whitespace; otherwise, at a `.` followed by a whitespace run and an
uppercase letter it splits and enters the skipping state, at a `.`
followed only by trailing whitespace it splits consuming just the `.`,
and any other character joins the current piece. -/
def splitGo (skip : Bool) : Str → List Str
  | [] => [[]]
  | c :: t =>
    if skip && isPyWS c then splitGo true t
    else if c = '.' && wsRunThenUpper t then [] :: splitGo true t
    else if c = '.' && allWs t then [] :: splitGo false t
    else
      match splitGo false t with
      | [] => [[c]]
      | h :: r => (c :: h) :: r

/-- `re.split(r'\.\s+(?=[A-Z])|\.(?=\s*$)', entry_text)`: the pieces the
scan produces starting outside any whitespace run. -/
def reSplitSentences (s : Str) : List Str := splitGo false s

/-- Line 148: strip each piece and keep the non-empty ones. -/
def sentencesOf (e : Str) : List Str :=
  ((reSplitSentences e).map pyStrip).filter fun s => !s.isEmpty

/-- A `\b\d{4}\b` match starting at position `i`: four ASCII digits with no
word character immediately before or after. -/
def isDigit4At (s : Str) (i : Nat) : Bool :=
  ((s.drop i).take 4).length = 4 && ((s.drop i).take 4).all isDigitCh &&
    (match (s.take i).getLast? with
     | none => true
     | some c => !isWordCh c) &&
    (match (s.drop (i + 4)).head? with
     | none => true
     | some c => !isWordCh c)

/-- `re.search(r'\b\d{4}\b', sentence)` (line 159): the sentence contains a
standalone four-digit number. -/
def hasYear (s : Str) : Bool :=
  (List.range (s.length + 1)).any fun i => isDigit4At s i

/-- Lines 155-169: one pass over the sentences collects the main-entry
candidates (no year, at least two commas), falling back to the first
sentence when none qualify. -/
def mainCandidates (sents : List Str) : List Str :=
  let mc := sents.filter fun s => !hasYear s && decide (2 ≤ countChar ',' s)
  if mc.isEmpty then
    match sents with
    | [] => []
    | s0 :: _ => [s0]
  else mc

/-- Python `max(main_candidates, key=lambda s: s.count(','))` (line 180):
the first element with the maximal comma count. -/
def maxByCommas : List Str → Option Str
  | [] => none
  | x :: r =>
    some (r.foldl (fun best s => if countChar ',' best < countChar ',' s then s else best) x)

/-- Lines 171-183: prefer the first candidate containing `"College of"`,
otherwise the candidate with the most commas. -/
def selectMain (cands : List Str) : Option Str :=
  match cands.find? (fun s => strContains s "College of".toList) with
  | some s => some s
  | none => maxByCommas cands

/-- The sentence `parse_faculty_entry` selects as the main entry. -/
def mainSentenceOf (e : Str) : Option Str :=
  selectMain (mainCandidates (sentencesOf e))

/-- Lines 196-203 over `fields[2:]`: relative index and value of the first
field containing `"College of"`. -/
def findCollege : List Str → Option (Nat × Str)
  | [] => none
  | f :: rest =>
    if strContains f "College of".toList then some (0, f)
    else (findCollege rest).map fun jc => (jc.1 + 1, jc.2)

/-- `fuzzy_match_department` (`scrape_faculty.py` lines 83-104): exact
case-insensitive match against the department names first, then a
substring match in either direction; the department dictionary is modelled
as an association list in insertion order. -/
def fuzzy_match_department (text : Str) (departments : List (Str × Str)) : Option Str :=
  if text.isEmpty || departments.isEmpty then none
  else
    let tl := pyStrip (pyLower text)
    match departments.find? (fun d => pyLower d.1 = tl) with
    | some d => some d.2
    | none =>
      match departments.find?
          (fun d => strContains tl (pyLower d.1) || strContains (pyLower d.1) tl) with
      | some d => some d.2
      | none => none

/-- Lines 215-228: walk the middle fields; the first field whose fuzzy
department match is truthy becomes the department (raw text and ID) and
stops the loop, every earlier field goes to the title parts. -/
def deptLoop (departments : List (Str × Str)) : List Str → List Str × Str × Option Str
  | [] => ([], [], none)
  | f :: rest =>
    match fuzzy_match_department f departments with
    | some mid =>
      if mid.isEmpty then
        let tpd := deptLoop departments rest
        (f :: tpd.1, tpd.2)
      else ([], f, some mid)
    | none =>
      let tpd := deptLoop departments rest
      (f :: tpd.1, tpd.2)

/-- The record `parse_faculty_entry` returns (lines 248-257). -/
structure FacultyRecord where
  full_name : Str
  first_name : Str
  last_name : Str
  title : Str
  department : Str
  department_id : Str
  college : Str
  academic_history : Str

/-- The `college` string of lines 196-203: the first `fields[2:]` field
containing `"College of"`, or the empty string. -/
def collegeValue (rest : List Str) : Str :=
  match findCollege rest with
  | some jc => jc.2
  | none => []

/-- The `middle_fields` slice of lines 205-211: everything of `fields[2:]`
before the college field, or all of it when there is no college. -/
def middleFields (rest : List Str) : List Str :=
  match findCollege rest with
  | some jc => rest.take jc.1
  | none => rest

/-- Lines 191-257 once the main sentence has at least three comma fields:
`f0`/`f1` are the first two fields, `rest` the rest (`fields[2:]`,
non-empty). -/
def mkFacultyRecord (sentences : List Str) (departments : List (Str × Str))
    (f0 f1 : Str) (rest : List Str) : FacultyRecord :=
  let college := collegeValue rest
  let middle := middleFields rest
  let tpd := deptLoop departments middle
  let title :=
    if !tpd.1.isEmpty then pyJoin ", ".toList tpd.1
    else match middle with
      | m0 :: _ => m0
      | [] => []
  { full_name := f0 ++ ", ".toList ++ f1
    first_name := f1
    last_name := f0
    title := title
    department := tpd.2.1
    department_id := match tpd.2.2 with | some d => d | none => []
    college := college
    academic_history := pyJoin ". ".toList (sentences.filter hasYear) }

/-- Lines 185-257 applied to the selected main sentence: split it on
commas, strip the fields, fail with fewer than three fields, otherwise
build the record. -/
def parseMain (sentences : List Str) (departments : List (Str × Str)) (m : Str) :
    Option FacultyRecord :=
  match (pySplitOn ',' m).map pyStrip with
  | f0 :: f1 :: f2 :: rest3 =>
    some (mkFacultyRecord sentences departments f0 f1 (f2 :: rest3))
  | _ => none

/-- `parse_faculty_entry` after the sentence split (lines 148-257), as a
function of the raw split pieces. -/
def parseWithSentences (raw : List Str) (departments : List (Str × Str)) :
    Option FacultyRecord :=
  let sentences := (raw.map pyStrip).filter fun s => !s.isEmpty
  if sentences.isEmpty then none
  else
    match selectMain (mainCandidates sentences) with
    | none => none
    | some m => parseMain sentences departments m

/-- `parse_faculty_entry` (`scrape_faculty.py` lines 136-257). -/
def parse_faculty_entry (e : Str) (departments : List (Str × Str)) :
    Option FacultyRecord :=
  parseWithSentences (reSplitSentences e) departments

/-- Fuel-indexed variant of the sentence-splitting scan: `none` when the
fuel runs out, used to show the scan needs at most one step per input
character. -/
def splitGoFuel : Nat → Bool → Str → Option (List Str)
  | 0, _, _ => none
  | _ + 1, _, [] => some [[]]
  | fuel + 1, skip, c :: t =>
    if skip && isPyWS c then splitGoFuel fuel true t
    else if c = '.' && wsRunThenUpper t then (splitGoFuel fuel true t).map ([] :: ·)
    else if c = '.' && allWs t then (splitGoFuel fuel false t).map ([] :: ·)
    else
      (splitGoFuel fuel false t).map fun r =>
        match r with
        | [] => [[c]]
        | h :: rr => (c :: h) :: rr

/-- Fuel-indexed sentence split. -/
def reSplitSentencesFuel (fuel : Nat) (s : Str) : Option (List Str) :=
  splitGoFuel fuel false s

/-- Fuel-indexed `parse_faculty_entry`: the character scan runs on fuel,
everything after it is a fixed sequence of structural passes over the
resulting lists. -/
def parse_faculty_entry_fuel (fuel : Nat) (e : Str) (departments : List (Str × Str)) :
    Option (Option FacultyRecord) :=
  (reSplitSentencesFuel fuel e).map fun raw => parseWithSentences raw departments

/-! ## `scrape_grants.py`: grants and CSV rows -/

/-- A parsed grant as produced by `parse_grant_entry`
(`scrape_grants.py` lines 247-254). -/
structure Grant where
  awardees : List String
  sponsor : String
  title : String
  funding : Option Int
  is_anticipated : Bool
  date : Option String

/-- A row of the output CSV written by `save_to_csv`
(`scrape_grants.py` lines 411-421, 432-442, 447-457). -/
structure GrantRow where
  grant_id : Str
  funding : Option Int
  sponsor : String
  awardee : String
  title : String
  date : Option String
  is_anticipated : Bool
  department_id : String
  capabilities_id : String

/-! ### `parse_funding_amount` (`scrape_grants.py` lines 74-110)

Python `float` is IEEE-754 binary64; a finite double is exactly a rational
`m * 2^e`, and both `float(<decimal string>)` and multiplication are
correctly rounded (round to nearest, ties to even).  The embedding keeps
the exact rational a double denotes and rounds explicitly; `none` stands
for a non-finite double (overflow to infinity), on which Python's `int()`
raises `OverflowError` — uncaught here, since the source only catches
`ValueError`. -/

/-- Fuel-indexed floor of the base-2 logarithm with an accumulator
(tail-recursive so that kernel evaluation runs in constant stack);
fuel `n` suffices for input `n`.  Numbers of at least 64 bits are cut by
64 bits at a time (`n >>> 64 = n / 2^64 ≥ 1` there, and the floor of the
logarithm drops by exactly 64), so evaluation depth stays small even for
thousand-bit inputs. -/
def nlog2Aux : Nat → Nat → Nat → Nat
  | 0, _, acc => acc
  | fuel + 1, n, acc =>
    if n ≤ 1 then acc
    else if 18446744073709551616 ≤ n then nlog2Aux fuel (n >>> 64) (acc + 64)
    else nlog2Aux fuel (n / 2) (acc + 1)

/-- Floor of the base-2 logarithm of a natural number (`0` at `0`). -/
def nlog2 (n : Nat) : Nat := nlog2Aux n n 0

/-- `2^e` as a rational, for an integer exponent. -/
def qpow2 (e : Int) : ℚ :=
  if 0 ≤ e then ((1 <<< e.toNat : Nat) : ℚ) else 1 / ((1 <<< (-e).toNat : Nat) : ℚ)

/-- Round a rational to the nearest integer, ties to even. -/
def rhe (q : ℚ) : Int :=
  let f := ⌊q⌋
  let r := q - (f : ℚ)
  if r < 1 / 2 then f
  else if 1 / 2 < r then f + 1
  else if f % 2 = 0 then f else f + 1

/-- Floor of the base-2 logarithm of a positive rational, computed from
`⌊q * 2^1200⌋` (exact whenever `q ≥ 2^-1200`; smaller values only ever
round to zero below). -/
def flog2 (q : ℚ) : Int :=
  (nlog2 (q.num.natAbs <<< 1200 / q.den) : Int) - 1200

/-- Round a rational to the nearest IEEE-754 binary64 value (round to
nearest, ties to even), as the exact rational that double denotes:
the grid exponent is `max (-1074) (⌊log2 |q|⌋ - 52)` (subnormals below
`2^-1022`, 53-bit significands above), and a rounded magnitude reaching
`2^1024` overflows to infinity (`none`). -/
def roundB64 (q : ℚ) : Option ℚ :=
  if q = 0 then some 0
  else
    let e : Int := max (-1074) (flog2 |q| - 52)
    let m : Int := rhe (|q| / qpow2 e)
    let v : ℚ := (m : ℚ) * qpow2 e
    if ((1 <<< 1024 : Nat) : ℚ) ≤ v then none
    else some (if q < 0 then -v else v)

/-- The regex class `[\d,]`. -/
def isDigitComma (c : Char) : Bool := isDigitCh c || c = ','

/-- One suffix letter `[MmKk]`. -/
def isMultCh (c : Char) : Bool := c = 'M' || c = 'm' || c = 'K' || c = 'k'

/-- The greedy optional fraction `(?:\.\d+)?` after the digit/comma run:
group 1 so far and the rest of the string, extended by `.`+digits when a
dot with at least one following digit comes next. -/
def numGroup (run : Str) (t2 : Str) : Str × Str :=
  match t2 with
  | '.' :: u =>
    if (u.takeWhile isDigitCh).isEmpty then (run, t2)
    else (run ++ '.' :: u.takeWhile isDigitCh, u.drop (u.takeWhile isDigitCh).length)
  | _ => (run, t2)

/-- The multiplier letter when the string starts with one of `MmKk`. -/
def multHead : Str → Option Char
  | c :: _ => if isMultCh c then some c else none
  | [] => none

/-- The trailing `\s*([MmKk])?` of the pattern: group 1 together with the
optional multiplier letter (the optional group always succeeds, possibly
empty). -/
def matchSuffix (g1 : Str) (t3 : Str) : Option (Str × Option Char) :=
  some (g1, multHead (t3.dropWhile isPyWS))

/-- Attempt of `\$\s*([\d,]+(?:\.\d+)?)\s*([MmKk])?` at the start of the
string: a dollar sign, optional whitespace, a non-empty greedy run of
digits/commas, a greedy optional `.`+digits fraction, optional whitespace
and an optional single multiplier letter; returns group 1 and the
multiplier. -/
def matchDollar : Str → Option (Str × Option Char)
  | [] => none
  | c :: t =>
    if c = '$' then
      if ((t.dropWhile isPyWS).takeWhile isDigitComma).isEmpty then none
      else
        let run := (t.dropWhile isPyWS).takeWhile isDigitComma
        let g1t3 := numGroup run ((t.dropWhile isPyWS).drop run.length)
        matchSuffix g1t3.1 g1t3.2
    else none

/-- `re.search` with the dollar-amount pattern: the leftmost position
where it matches (the pattern starts with `\$`, so only positions holding
a dollar sign can match). -/
def searchDollar : Str → Option (Str × Option Char)
  | [] => none
  | c :: t =>
    match matchDollar (c :: t) with
    | some r => some r
    | none => searchDollar t

/-- `float(s)` for the comma-stripped text of group 1, whose only possible
shapes are `""`, digits, or digits-`.`-digits (with a possibly empty
integer part): the exact rational value, or `none` for the `ValueError`
on an empty string. -/
def ratOfCleaned (s : Str) : Option ℚ :=
  if s.isEmpty then none
  else
    match s.drop (s.takeWhile isDigitCh).length with
    | [] => some ((digitsVal (s.takeWhile isDigitCh) : Nat) : ℚ)
    | '.' :: frac =>
      some (((digitsVal (s.takeWhile isDigitCh) : Nat) : ℚ) +
        ((digitsVal frac : Nat) : ℚ) / (10 : ℚ) ^ frac.length)
    | _ => none

/-- `"anticipated" in amount_str.lower()` (line 85). -/
def containsAnticipated (s : Str) : Bool :=
  strContains (pyLower s) "anticipated".toList

/-- Lines 96-105: convert the matched text to a double and apply the
suffix multiplier in double arithmetic; `none` is a non-finite result. -/
def floatPipeline (q : ℚ) (mult : Option Char) : Option ℚ :=
  match mult with
  | some c =>
    if c = 'M' ∨ c = 'm' then (roundB64 q).bind fun v => roundB64 (v * 1000000)
    else (roundB64 q).bind fun v => roundB64 (v * 1000)
  | none => roundB64 q

/-- `parse_funding_amount` (`scrape_grants.py` lines 74-110): the
anticipated flag from a case-insensitive substring test; the first regex
match parsed as a double with the M/K multiplier applied and truncated by
`int()` (the values are non-negative, so truncation is the floor); a
failed `float` (empty comma-only text) is a caught `ValueError` giving
`None`; `int()` of an infinite double raises `OverflowError`, which the
`except ValueError` does not catch (`Except.error`). -/
def parse_funding_amount (s : Str) : Except Unit (Option Int × Bool) :=
  let is_anticipated := containsAnticipated s
  match searchDollar s with
  | none => .ok (none, is_anticipated)
  | some gm =>
    match ratOfCleaned (removeChar ',' gm.1) with
    | none => .ok (none, is_anticipated)
    | some q =>
      match floatPipeline q gm.2 with
      | none => .error ()
      | some v => .ok (some ⌊v⌋, is_anticipated)

/-! ### `parse_date` (`scrape_grants.py` lines 55-71) and CPython
`datetime.strptime(s, "%B %d, %Y")`.

CPython's `_strptime` compiles the format to the regex
`(?P<B>september|february|november|december|january|october|august|march|april|june|july|may)\s+(?P<d>3[0-1]|[1-2]\d|0[1-9]|[1-9]| [1-9]),\s+(?P<Y>\d\d\d\d)`
with `re.IGNORECASE`, anchored at the start, and requires the match to
consume the whole string; the matched values then go through the
`datetime` constructor, which validates the calendar date.  The ` [1-9]`
day alternative can never fire after the greedy `\s+` (the remaining
character is never whitespace, and giving one space back reproduces the
plain `[1-9]` case), so it is omitted here. -/

/-- The month-name alternation of `%B` in CPython's order (sorted by
length, longest first); no name is a prefix of another, so the first
prefix match is the only one. -/
def monthTable : List (Str × Nat) :=
  [("september".toList, 9), ("february".toList, 2), ("november".toList, 11),
   ("december".toList, 12), ("january".toList, 1), ("october".toList, 10),
   ("august".toList, 8), ("march".toList, 3), ("april".toList, 4),
   ("june".toList, 6), ("july".toList, 7), ("may".toList, 5)]

/-- Case-insensitive month-name match at the start of the string; returns
the month number and the rest of the string. -/
def matchMonth (s : Str) : Option (Nat × Str) :=
  (monthTable.find? fun me => me.1.isPrefixOf (pyLower s)).map fun me =>
    (me.2, s.drop me.1.length)

/-- The greedy `\s+`: at least one whitespace character, consuming the
maximal run. -/
def wsRun : Str → Option Str
  | [] => none
  | c :: t => if isPyWS c then some ((c :: t).dropWhile isPyWS) else none

/-- The `%d` alternation `3[0-1]|[1-2]\d|0[1-9]|[1-9]` in order, as
(day value, rest) candidates. -/
def dayCandidates : Str → List (Nat × Str)
  | c1 :: c2 :: t =>
    (if c1 = '3' && (c2 = '0' || c2 = '1') then [(30 + dval c2, t)] else []) ++
    (if (c1 = '1' || c1 = '2') && isDigitCh c2 then [(10 * dval c1 + dval c2, t)] else []) ++
    (if c1 = '0' && ('1' ≤ c2 && c2 ≤ '9') then [(dval c2, t)] else []) ++
    (if '1' ≤ c1 && c1 ≤ '9' then [(dval c1, c2 :: t)] else [])
  | [c] => if '1' ≤ c && c ≤ '9' then [(dval c, [])] else []
  | [] => []

/-- `%d` followed by the literal comma, with the regex backtracking over
the alternation: the first candidate whose rest starts with `,` (at most
one can). -/
def matchDayComma (s : Str) : Option (Nat × Str) :=
  ((dayCandidates s).find? fun dc => dc.2.head? = some ',').map fun dc =>
    (dc.1, dc.2.drop 1)

/-- `\s+(?P<Y>\d\d\d\d)` at the end of the string: a whitespace run then
exactly four digits consuming the rest (the full match must reach the end
of the data or `strptime` raises). -/
def matchYearEnd : Str → Option Nat
  | [] => none
  | c :: t =>
    if isPyWS c then
      if ((c :: t).dropWhile isPyWS).length = 4 && ((c :: t).dropWhile isPyWS).all isDigitCh
      then some (digitsVal ((c :: t).dropWhile isPyWS))
      else none
    else none

/-- Gregorian leap year, as `datetime` uses it. -/
def isLeap (y : Nat) : Bool := y % 4 = 0 && (y % 100 ≠ 0 || y % 400 = 0)

/-- Days in a month, as the `datetime` constructor validates them. -/
def daysInMonth (y m : Nat) : Nat :=
  if m = 2 then (if isLeap y then 29 else 28)
  else if m = 4 || m = 6 || m = 9 || m = 11 then 30
  else 31

/-- `datetime.strptime(s, "%B %d, %Y")` as a partial function to
(year, month, day): the anchored full match followed by the `datetime`
constructor's range check (year at least 1, day within the month);
`none` models the raised `ValueError`. -/
def strptime_BdY (s : Str) : Option (Nat × Nat × Nat) :=
  (matchMonth s).bind fun mr =>
    (wsRun mr.2).bind fun r2 =>
      (matchDayComma r2).bind fun dr =>
        (matchYearEnd dr.2).bind fun y =>
          if 1 ≤ y && 1 ≤ dr.1 && dr.1 ≤ daysInMonth y mr.1 then
            some (y, mr.1, dr.1)
          else none

/-- Zero-pad a natural number to width `w` (`strftime` `%m`/`%d`
padding, and the claim-side 4-digit year). -/
def padNat (w : Nat) (n : Nat) : Str :=
  List.replicate (w - (natToStr n).length) '0' ++ natToStr n

/-- `date_obj.strftime("%Y-%m-%d")` as CPython delegates it to the C
library (glibc): `%Y` is the year as an unpadded decimal number, `%m` and
`%d` are zero-padded to two digits. -/
def formatYMD (y m d : Nat) : Str :=
  natToStr y ++ "-".toList ++ padNat 2 m ++ "-".toList ++ padNat 2 d

/-- The ISO `YYYY-MM-DD` form the claim describes: four-digit zero-padded
year, two-digit month and day. -/
def isoYMD (y m d : Nat) : Str :=
  padNat 4 y ++ "-".toList ++ padNat 2 m ++ "-".toList ++ padNat 2 d

/-- `parse_date` (`scrape_grants.py` lines 55-71): strip the input, try
`strptime("%B %d, %Y")`; on success reformat with `strftime("%Y-%m-%d")`,
on `ValueError` return the stripped input unchanged. -/
def parse_date (s : Str) : Str :=
  match strptime_BdY (pyStrip s) with
  | some ymd => formatYMD ymd.1 ymd.2.1 ymd.2.2
  | none => pyStrip s

/-- `format_grant_id` (`scrape_grants.py` lines 257-259):
`f"G{number:05d}"`. -/
def format_grant_id (n : Int) : Str := 'G' :: pyZFill 5 n

/-- One output row built from grant `g` with counter `k` and awardee cell
`a` (`save_to_csv` row dictionaries; `department_id` and `capabilities_id`
are always left blank for manual review). -/
def mkGrantRow (k : Int) (g : Grant) (a : String) : GrantRow :=
  { grant_id := format_grant_id k
    funding := g.funding
    sponsor := g.sponsor
    awardee := a
    title := g.title
    date := g.date
    is_anticipated := g.is_anticipated
    department_id := ""
    capabilities_id := "" }

/-- Inner loop of `save_to_csv` (lines 446-458): one row per awardee, the
grant counter incremented once per row. -/
def awardeeRows (g : Grant) : Int → List String → List GrantRow
  | _, [] => []
  | k, a :: rest => mkGrantRow k g a :: awardeeRows g (k + 1) rest

/-- The `rows` list of `save_to_csv` (`scrape_grants.py` lines 423-458):
`grant_counter` starts at 1; a grant with no awardees yields one row with
an empty awardee cell, otherwise one row per awardee. -/
def saveToCsvRows : Int → List Grant → List GrantRow
  | _, [] => []
  | k, g :: gs =>
    match g.awardees with
    | [] => mkGrantRow k g "" :: saveToCsvRows (k + 1) gs
    | a :: rest =>
      awardeeRows g k (a :: rest) ++ saveToCsvRows (k + (a :: rest).length) gs

/-- The full row list written by `save_to_csv` for a list of parsed
grants. -/
def save_to_csv (grants : List Grant) : List GrantRow := saveToCsvRows 1 grants

/-- Awardee/grant pairs in output order: the claim-level expansion of a
grant list (one pair per awardee, or one pair with an empty awardee). -/
def flatExpand (gs : List Grant) : List (String × Grant) :=
  gs.flatMap fun g =>
    if g.awardees = [] then [("", g)] else g.awardees.map fun a => (a, g)

/-- Consecutive ID assignment over awardee/grant pairs. -/
def assignIds : Int → List (String × Grant) → List GrantRow
  | _, [] => []
  | k, p :: rest => mkGrantRow k p.2 p.1 :: assignIds (k + 1) rest

/-- The non-ID fields of an output row, in claim order. -/
def rowFields (r : GrantRow) : String × Option Int × String × String × Option String × Bool :=
  (r.awardee, r.funding, r.sponsor, r.title, r.date, r.is_anticipated)

/-- The non-ID fields the claim predicts for awardee cell `a` of grant
`g`. -/
def pairFields (p : String × Grant) : String × Option Int × String × String × Option String × Bool :=
  (p.1, p.2.funding, p.2.sponsor, p.2.title, p.2.date, p.2.is_anticipated)

/-- Decidable equality of the result type of `parse_funding_amount`. -/
instance : DecidableEq (Except Unit (Option Int × Bool)) := fun a b =>
  match a, b with
  | .ok x, .ok y =>
    if h : x = y then isTrue (by rw [h]) else isFalse (fun hc => h (Except.ok.inj hc))
  | .error x, .error y => isTrue (by cases x; cases y; rfl)
  | .ok _, .error _ => isFalse (fun hc => Except.noConfusion hc)
  | .error _, .ok _ => isFalse (fun hc => Except.noConfusion hc)

/-! ## Theorems -/

/-- C10: `clean_csv` returns the dataframe with exactly the columns whose
names start with "Unnamed" removed; every other column keeps its name,
relative order and cell values, and membership is unchanged for kept
columns. -/
theorem clean_csv_drops_exactly_unnamed (df : List DFCol) :
    clean_csv df = df.filter (fun col => ! "Unnamed".toList.isPrefixOf col.name.toList) ∧
    (clean_csv df).Sublist df ∧
    ∀ col, col ∈ clean_csv df ↔
      (col ∈ df ∧ ¬ ("Unnamed".toList <+: col.name.toList)) := by
  have hpt : ∀ s : Str, reSearchCaretLit "Unnamed".toList s =
      "Unnamed".toList.isPrefixOf s := by
    intro s
    unfold reSearchCaretLit litMatchAt
    rw [List.range_succ_eq_map, List.any_cons]
    simp [List.any_map, Function.comp]
  have hfun : clean_csv df =
      df.filter (fun col => ! "Unnamed".toList.isPrefixOf col.name.toList) := by
    unfold clean_csv
    congr 1
    funext col
    rw [hpt]
  refine ⟨hfun, ?_, ?_⟩
  · rw [hfun]; exact List.filter_sublist df
  · intro col
    rw [hfun]
    simp only [List.mem_filter, Bool.not_eq_true']
    rw [← List.isPrefixOf_iff_prefix, Bool.eq_false_iff]

/-- C8: `cap_dept_rows` produces exactly one `(capabilities_id, dept)` pair
for each non-empty stripped element of the comma-split `department_id`
cell of each row, in row and element order, with the row's
`capabilities_id` stripped. -/
theorem cap_dept_rows_spec (rows : List (Str × Str)) :
    cap_dept_rows rows =
      rows.flatMap fun row =>
        (((pySplitOn ',' row.2).map pyStrip).filter (fun d => d ≠ [])).map
          (fun d => (pyStrip row.1, d)) := by
  suffices h : ∀ (init : List (Str × Str)),
      rows.foldl
        (fun acc row =>
          (pySplitOn ',' row.2).foldl
            (fun acc2 dept =>
              if (pyStrip dept).isEmpty then acc2 else acc2 ++ [(pyStrip row.1, pyStrip dept)])
            acc)
        init =
      init ++ rows.flatMap (fun row =>
        (((pySplitOn ',' row.2).map pyStrip).filter (fun d => d ≠ [])).map
          (fun d => (pyStrip row.1, d))) by
    simpa [cap_dept_rows] using h []
  have inner : ∀ (ds : List Str) (acc : List (Str × Str)) (cap : Str),
      ds.foldl
        (fun acc2 dept =>
          if (pyStrip dept).isEmpty then acc2 else acc2 ++ [(cap, pyStrip dept)])
        acc =
      acc ++ ((ds.map pyStrip).filter (fun d => d ≠ [])).map (fun d => (cap, d)) := by
    intro ds
    induction ds with
    | nil => intro acc cap; simp
    | cons d rest2 ih2 =>
      intro acc cap
      simp only [List.foldl_cons, List.map_cons, List.filter_cons]
      by_cases hd : pyStrip d = []
      · rw [if_pos (by simp [hd])]
        rw [ih2]
        simp [hd]
      · rw [if_neg (by simp [List.isEmpty_iff, hd])]
        rw [ih2]
        simp [hd]
  intro init
  induction rows generalizing init with
  | nil => simp
  | cons row rest ih =>
    simp only [List.foldl_cons, List.flatMap_cons]
    rw [inner, ih]
    simp

/-- C7: when acquiring the input document fails, the top-level scrape
functions return the empty list: `scrape_faculty` returns `[]` on any HTTP
request error (a raised `RequestException`, or an error status turned into
`HTTPError` by `raise_for_status`), and `scrape_grants_from_file` returns
`[]` when the file does not exist or reading it raises. -/
theorem scrape_error_paths_empty (parseBody parseHtml : String → List (List String))
    (st : Nat) (body : String) (hst : raiseForStatusFails st = true) :
    scrape_faculty parseBody .exn = [] ∧
    scrape_faculty parseBody (.resp st body) = [] ∧
    scrape_grants_from_file parseHtml .absent = [] ∧
    scrape_grants_from_file parseHtml .readError = [] := by
  refine ⟨rfl, ?_, rfl, rfl⟩
  simp [scrape_faculty, hst]

/-- Witness for C7 at a concrete failing status (503) and concrete parsers. -/
theorem scrape_error_paths_empty_witness :
    scrape_faculty (fun _ => ([] : List (List String))) (.resp 503 "x") = [] := by
  exact (scrape_error_paths_empty (fun _ => []) (fun _ => []) 503 "x" (by decide)).2.1

/-! ### Digit and `int()` parsing lemmas -/

theorem dropWhile_eq_self_of (p : Char → Bool) (s : Str) (h : ∀ c ∈ s, p c = false) :
    s.dropWhile p = s := by
  cases s with
  | nil => rfl
  | cons a t => simp [List.dropWhile_cons, h a (by simp)]

theorem pyStrip_eq_self (s : Str) (h : ∀ c ∈ s, isPyWS c = false) : pyStrip s = s := by
  unfold pyStrip
  rw [dropWhile_eq_self_of _ _ h,
    dropWhile_eq_self_of _ _ (fun c hc => h c (List.mem_reverse.mp hc)),
    List.reverse_reverse]

theorem isDigitCh_digitCh {d : Nat} (hd : d < 10) : isDigitCh (digitCh d) = true := by
  interval_cases d <;> decide

theorem dval_digitCh {d : Nat} (hd : d < 10) : dval (digitCh d) = d := by
  interval_cases d <;> decide

theorem digit_not_special {c : Char} (h : isDigitCh c = true) :
    c ≠ 'F' ∧ isPyWS c = false ∧ c ≠ '_' ∧ c ≠ '+' ∧ c ≠ '-' := by
  refine ⟨?_, ?_, ?_, ?_, ?_⟩
  · rintro rfl; exact absurd h (by decide)
  · by_contra hw
    rw [Bool.not_eq_false] at hw
    simp only [isPyWS, Bool.or_eq_true, decide_eq_true_eq] at hw
    rcases hw with ((((h1 | h1) | h1) | h1) | h1) | h1 <;> subst h1 <;>
      exact absurd h (by decide)
  · rintro rfl; exact absurd h (by decide)
  · rintro rfl; exact absurd h (by decide)
  · rintro rfl; exact absurd h (by decide)

theorem natDigitsLEAux_irrel : ∀ (f1 f2 n : Nat), n ≤ f1 → n ≤ f2 →
    natDigitsLEAux f1 n = natDigitsLEAux f2 n := by
  intro f1
  induction f1 with
  | zero =>
    intro f2 n h1 _
    have hn : n = 0 := by omega
    subst hn
    cases f2 <;> rfl
  | succ g1 ih =>
    intro f2 n h1 h2
    cases n with
    | zero => cases f2 <;> rfl
    | succ k =>
      cases f2 with
      | zero => omega
      | succ g2 =>
        rw [natDigitsLEAux, natDigitsLEAux]
        congr 1
        have hd : (k + 1) / 10 < k + 1 := Nat.div_lt_self (Nat.succ_pos k) (by norm_num)
        exact ih g2 ((k + 1) / 10) (by omega) (by omega)

theorem natDigitsLE_nonzero (m : Nat) (hm : m ≠ 0) :
    natDigitsLE m = m % 10 :: natDigitsLE (m / 10) := by
  cases m with
  | zero => exact absurd rfl hm
  | succ n =>
    show natDigitsLEAux (n + 1) (n + 1) = _
    rw [natDigitsLEAux]
    congr 1
    have hd : (n + 1) / 10 < n + 1 := Nat.div_lt_self (Nat.succ_pos n) (by norm_num)
    exact natDigitsLEAux_irrel n ((n + 1) / 10) ((n + 1) / 10) (by omega) (by omega)

theorem natDigitsLE_lt10 : ∀ m : Nat, ∀ d ∈ natDigitsLE m, d < 10 := by
  intro m
  induction m using Nat.strong_induction_on with
  | _ m ih =>
    cases m with
    | zero => intro d hd; simp [natDigitsLE, natDigitsLEAux] at hd
    | succ n =>
      rw [natDigitsLE_nonzero _ (Nat.succ_ne_zero n)]
      intro d hd
      rcases List.mem_cons.mp hd with h | h
      · subst h; exact Nat.mod_lt _ (by norm_num)
      · exact ih ((n + 1) / 10) (Nat.div_lt_self (Nat.succ_pos n) (by norm_num)) d h

theorem natDigitsLE_val : ∀ m : Nat, (natDigitsLE m).foldr (fun d a => 10 * a + d) 0 = m := by
  intro m
  induction m using Nat.strong_induction_on with
  | _ m ih =>
    cases m with
    | zero => simp [natDigitsLE, natDigitsLEAux]
    | succ n =>
      rw [natDigitsLE_nonzero _ (Nat.succ_ne_zero n)]
      simp only [List.foldr_cons]
      rw [ih _ (Nat.div_lt_self (Nat.succ_pos n) (by norm_num))]
      omega

theorem foldr_digit_congr (l : List Nat) (h : ∀ d ∈ l, d < 10) :
    l.foldr (fun d a => 10 * a + dval (digitCh d)) 0 =
    l.foldr (fun d a => 10 * a + d) 0 := by
  induction l with
  | nil => rfl
  | cons x t ih =>
    simp only [List.foldr_cons]
    rw [ih (fun d hd => h d (List.mem_cons_of_mem _ hd)),
      dval_digitCh (h x (List.mem_cons_self _ _))]

theorem digitsVal_natToStr (m : Nat) : digitsVal (natToStr m) = m := by
  unfold natToStr
  by_cases hm : m = 0
  · subst hm; decide
  · rw [if_neg hm]
    unfold digitsVal
    rw [List.foldl_reverse, List.foldr_map]
    exact (foldr_digit_congr _ (natDigitsLE_lt10 m)).trans (natDigitsLE_val m)

theorem natToStr_digits (m : Nat) : ∀ c ∈ natToStr m, isDigitCh c = true := by
  unfold natToStr
  by_cases hm : m = 0
  · subst hm; intro c hc; simp at hc; subst hc; decide
  · rw [if_neg hm]
    intro c hc
    rw [List.mem_reverse] at hc
    rcases List.mem_map.mp hc with ⟨d, hd, rfl⟩
    exact isDigitCh_digitCh (natDigitsLE_lt10 m d hd)

theorem natToStr_ne_nil (m : Nat) : natToStr m ≠ [] := by
  unfold natToStr
  by_cases hm : m = 0
  · subst hm; decide
  · rw [if_neg hm]
    intro hcon
    rw [List.reverse_eq_nil_iff, List.map_eq_nil_iff] at hcon
    rw [natDigitsLE_nonzero m hm] at hcon
    exact List.cons_ne_nil _ _ hcon

theorem pyZFill_nonneg (w : Nat) (n : Int) (hn : 0 ≤ n) :
    pyZFill w n = List.replicate (w - (natToStr n.natAbs).length) '0' ++ natToStr n.natAbs := by
  unfold pyZFill
  rw [if_neg (not_lt.mpr hn)]
  simp

theorem pyZFill_digits (w : Nat) (n : Int) (hn : 0 ≤ n) :
    ∀ c ∈ pyZFill w n, isDigitCh c = true := by
  rw [pyZFill_nonneg w n hn]
  intro c hc
  rcases List.mem_append.mp hc with h | h
  · rw [List.eq_of_mem_replicate h]; decide
  · exact natToStr_digits _ c h

theorem pyZFill_ne_nil (w : Nat) (n : Int) (hn : 0 ≤ n) : pyZFill w n ≠ [] := by
  rw [pyZFill_nonneg w n hn]
  intro hcon
  rcases List.append_eq_nil.mp hcon with ⟨_, h2⟩
  exact natToStr_ne_nil _ h2

theorem digitsVal_replicate_zero (p : Nat) (ds : Str) :
    digitsVal (List.replicate p '0' ++ ds) = digitsVal ds := by
  unfold digitsVal
  rw [List.foldl_append]
  have : List.foldl (fun a c => 10 * a + dval c) 0 (List.replicate p '0') = 0 := by
    induction p with
    | zero => rfl
    | succ q ih => rw [List.replicate_succ, List.foldl_cons]; exact ih
  rw [this]

theorem pyZFill_val (w : Nat) (n : Int) (hn : 0 ≤ n) :
    digitsVal (pyZFill w n) = n.natAbs := by
  rw [pyZFill_nonneg w n hn, digitsVal_replicate_zero, digitsVal_natToStr]

theorem parseDigitsUAux_digits (ds : Str) :
    ∀ acc, (∀ c ∈ ds, isDigitCh c = true) →
      parseDigitsUAux acc ds = some (ds.foldl (fun a c => 10 * a + dval c) acc) := by
  induction ds with
  | nil => intro acc _; rfl
  | cons c t ih =>
    intro acc h
    have hc := h c (List.mem_cons_self _ _)
    have hstep : parseDigitsUAux acc (c :: t) =
        parseDigitsUAux (10 * acc + dval c) t := by
      rw [parseDigitsUAux.eq_def]
      simp [hc]
    rw [hstep, ih _ (fun x hx => h x (List.mem_cons_of_mem _ hx))]
    rfl

theorem parseDigitsStart_digits (ds : Str) (hne : ds ≠ []) (h : ∀ c ∈ ds, isDigitCh c = true) :
    parseDigitsStart ds = some (digitsVal ds) := by
  cases ds with
  | nil => exact absurd rfl hne
  | cons c t =>
    have hc := h c (List.mem_cons_self _ _)
    have hstep : parseDigitsStart (c :: t) = parseDigitsUAux (dval c) t := by
      simp [parseDigitsStart, hc]
    rw [hstep, parseDigitsUAux_digits t _ (fun x hx => h x (List.mem_cons_of_mem _ hx))]
    have hv : digitsVal (c :: t) = t.foldl (fun a c => 10 * a + dval c) (dval c) := by
      unfold digitsVal
      rw [List.foldl_cons]
      congr 1
      omega
    rw [hv]

theorem pyIntParse_digits (ds : Str) (hne : ds ≠ []) (h : ∀ c ∈ ds, isDigitCh c = true) :
    pyIntParse ds = some ((digitsVal ds : Nat) : Int) := by
  have hs : pyStrip ds = ds :=
    pyStrip_eq_self ds (fun c hc => (digit_not_special (h c hc)).2.1)
  cases ds with
  | nil => exact absurd rfl hne
  | cons c t =>
    have hc := h c (List.mem_cons_self _ _)
    obtain ⟨_, _, _, hp, hm⟩ := digit_not_special hc
    have hstep : pyIntParse (c :: t) =
        (parseDigitsStart (c :: t)).map (fun n : Nat => (n : Int)) := by
      unfold pyIntParse
      rw [hs]
      simp [hp, hm]
    rw [hstep, parseDigitsStart_digits _ (List.cons_ne_nil _ _) h]
    rfl

theorem validFid_parse (fid : Str) (h : validFid fid) :
    pyIntParse (removeChar 'F' fid) = some (fidValue fid) := by
  obtain ⟨ds, rfl, hne, hd⟩ := h
  have hrem : removeChar 'F' ('F' :: ds) = ds := by
    unfold removeChar
    rw [List.filter_cons, if_neg (by simp)]
    exact List.filter_eq_self.mpr
      (fun c hc => by simpa using (digit_not_special (hd c hc)).1)
  rw [hrem, pyIntParse_digits ds hne hd]
  rfl

theorem seqOption_map_some {α β : Type} (f : α → Option β) (g : α → β) (l : List α)
    (h : ∀ x ∈ l, f x = some (g x)) : seqOption (l.map f) = some (l.map g) := by
  induction l with
  | nil => rfl
  | cons x t ih =>
    simp only [List.map_cons, seqOption]
    rw [h x (List.mem_cons_self _ _), ih (fun y hy => h y (List.mem_cons_of_mem _ hy))]
    rfl

theorem pyMaxList_cons (n x : Int) (r : List Int) :
    pyMaxList n (x :: r) = pyMaxList (max n x) r := rfl

theorem pyMaxList_mem (t : List Int) : ∀ n : Int, pyMaxList n t ∈ n :: t := by
  induction t with
  | nil => intro n; simp [pyMaxList]
  | cons x r ih =>
    intro n
    rw [pyMaxList_cons]
    rcases List.mem_cons.mp (ih (max n x)) with h1 | h1
    · rw [h1]
      rcases max_choice n x with hm | hm <;> rw [hm]
      · exact List.mem_cons_self _ _
      · exact List.mem_cons_of_mem _ (List.mem_cons_self _ _)
    · exact List.mem_cons_of_mem _ (List.mem_cons_of_mem _ h1)

theorem pyMaxList_ge (t : List Int) : ∀ n : Int, ∀ x ∈ n :: t, x ≤ pyMaxList n t := by
  induction t with
  | nil => intro n x hx; simp at hx; simp [pyMaxList, hx]
  | cons y r ih =>
    intro n x hx
    rw [pyMaxList_cons]
    have hall := ih (max n y)
    rcases List.mem_cons.mp hx with h | h
    · rw [h]
      exact le_trans (le_max_left n y) (hall _ (List.mem_cons_self _ _))
    rcases List.mem_cons.mp h with h2 | h2
    · rw [h2]
      exact le_trans (le_max_right n y) (hall _ (List.mem_cons_self _ _))
    · exact hall x (List.mem_cons_of_mem _ h2)

theorem pyMaxList_unique (n : Int) (t : List Int) (m : Int)
    (hmem : m ∈ n :: t) (hub : ∀ x ∈ n :: t, x ≤ m) : pyMaxList n t = m :=
  le_antisymm (hub _ (pyMaxList_mem t n)) (pyMaxList_ge t n m hmem)

theorem get_next_table_parsed (f : Str) (r : List Str)
    (hall : ∀ fid ∈ f :: r, validFid fid) :
    get_next_faculty_id (.table (f :: r)) =
      pyMaxList (fidValue f) (r.map fidValue) + 1 := by
  simp only [get_next_faculty_id]
  rw [seqOption_map_some _ fidValue _ (fun x hx => validFid_parse x (hall x hx))]
  rfl

theorem format_faculty_id_props (n : Int) (hn : 0 ≤ n) :
    validFid (format_faculty_id n) ∧ fidValue (format_faculty_id n) = n := by
  constructor
  · exact ⟨pyZFill 5 n, rfl, pyZFill_ne_nil 5 n hn, pyZFill_digits 5 n hn⟩
  · show (digitsVal (('F' :: pyZFill 5 n).drop 1) : Int) = n
    rw [List.drop_one, List.tail_cons, pyZFill_val 5 n hn]
    omega

/-- C4: `get_next_faculty_id` returns 1 when the faculty CSV is missing,
raises on read, or has no data rows; and for a non-empty `faculty_id`
column whose IDs are `F` followed by decimal digits it returns one plus
the maximum numeric suffix. -/
theorem get_next_faculty_id_spec :
    get_next_faculty_id .missing = 1 ∧
    get_next_faculty_id .readError = 1 ∧
    get_next_faculty_id (.table []) = 1 ∧
    ∀ ids : List Str, ids ≠ [] → (∀ fid ∈ ids, validFid fid) →
      ∃ m, m ∈ ids.map fidValue ∧ (∀ v ∈ ids.map fidValue, v ≤ m) ∧
        get_next_faculty_id (.table ids) = m + 1 := by
  refine ⟨rfl, rfl, rfl, ?_⟩
  intro ids hne hall
  cases ids with
  | nil => exact absurd rfl hne
  | cons f r =>
    refine ⟨pyMaxList (fidValue f) (r.map fidValue), ?_, ?_, ?_⟩
    · rw [List.map_cons]; exact pyMaxList_mem _ _
    · intro v hv; rw [List.map_cons] at hv; exact pyMaxList_ge _ _ v hv
    · exact get_next_table_parsed f r hall

/-- Witness for C4 on a concrete two-row CSV with IDs F00007 and F00002:
the returned value is the maximum suffix plus one. -/
theorem get_next_faculty_id_spec_witness :
    ∃ m, m ∈ (["F00007".toList, "F00002".toList] : List Str).map fidValue ∧
      (∀ v ∈ (["F00007".toList, "F00002".toList] : List Str).map fidValue, v ≤ m) ∧
      get_next_faculty_id (.table ["F00007".toList, "F00002".toList]) = m + 1 := by
  refine get_next_faculty_id_spec.2.2.2 _ (by decide) ?_
  intro fid hf
  rcases List.mem_cons.mp hf with h | h
  · exact ⟨"00007".toList, by rw [h]; rfl, by decide, by decide⟩
  · rcases List.mem_cons.mp h with h2 | h2
    · exact ⟨"00002".toList, by rw [h2]; rfl, by decide, by decide⟩
    · simp at h2

/-- C9: round-trip between ID formatting and the extraction performed by
`get_next_faculty_id`: removing every `F` from `format_faculty_id n` and
parsing with `int` yields `n` back; and appending `k ≥ 1` entries formatted
from the starting ID returned by `get_next_faculty_id` makes the next run
start at `start_id + k`. -/
theorem faculty_id_roundtrip :
    (∀ n : Nat, pyIntParse (removeChar 'F' (format_faculty_id (n : Int))) = some (n : Int)) ∧
    ∀ (olds : List Str) (k : Nat), (∀ fid ∈ olds, validFid fid) → 1 ≤ k →
      get_next_faculty_id (.table (olds ++ (List.range k).map (fun i : Nat =>
        format_faculty_id (get_next_faculty_id (.table olds) + (i : Int))))) =
      get_next_faculty_id (.table olds) + (k : Int) := by
  constructor
  · intro n
    have h := format_faculty_id_props (n : Int) (Int.ofNat_nonneg n)
    rw [validFid_parse _ h.1, h.2]
  · intro olds k hall hk
    set start := get_next_faculty_id (.table olds) with hstartdef
    have hvals : ∀ fid ∈ olds, fidValue fid < start := by
      intro fid hf
      cases olds with
      | nil => simp at hf
      | cons f r =>
        have := get_next_table_parsed f r hall
        have hle : fidValue fid ≤ pyMaxList (fidValue f) (r.map fidValue) := by
          apply pyMaxList_ge
          rw [← List.map_cons]
          exact List.mem_map_of_mem _ hf
        omega
    have hstart1 : 1 ≤ start := by
      cases olds with
      | nil => exact le_refl 1
      | cons f r =>
        rw [hstartdef, get_next_table_parsed f r hall]
        have h1 : fidValue f ≤ pyMaxList (fidValue f) (r.map fidValue) :=
          pyMaxList_ge _ _ _ (List.mem_cons_self _ _)
        have h2 : (0 : Int) ≤ fidValue f := Int.ofNat_nonneg _
        omega
    set news := (List.range k).map (fun i : Nat => format_faculty_id (start + (i : Int))) with hnews
    have hnewprops : ∀ i : Nat, validFid (format_faculty_id (start + (i : Int))) ∧
        fidValue (format_faculty_id (start + (i : Int))) = start + (i : Int) := by
      intro i
      exact format_faculty_id_props _ (by omega)
    have hallall : ∀ fid ∈ olds ++ news, validFid fid := by
      intro fid hf
      rcases List.mem_append.mp hf with h | h
      · exact hall fid h
      · rcases List.mem_map.mp h with ⟨i, _, rfl⟩
        exact (hnewprops i).1
    have hne : olds ++ news ≠ [] := by
      intro hcon
      rcases List.append_eq_nil.mp hcon with ⟨_, h2⟩
      rw [hnews, List.map_eq_nil_iff, List.range_eq_nil] at h2
      omega
    obtain ⟨f0, rest, hcons⟩ := List.exists_cons_of_ne_nil hne
    have hmax : pyMaxList (fidValue f0) (rest.map fidValue) = start + ((k - 1 : Nat) : Int) := by
      apply pyMaxList_unique
      · rw [← List.map_cons, ← hcons, List.map_append]
        apply List.mem_append_right
        rw [hnews, List.map_map]
        refine List.mem_map.mpr ⟨k - 1, ?_, ?_⟩
        · rw [List.mem_range]; omega
        · exact (hnewprops (k - 1)).2
      · intro x hx
        rw [← List.map_cons, ← hcons, List.map_append] at hx
        rcases List.mem_append.mp hx with h | h
        · rcases List.mem_map.mp h with ⟨fid, hf, rfl⟩
          have := hvals fid hf
          have hc : (0 : Int) ≤ ((k - 1 : Nat) : Int) := Int.ofNat_nonneg _
          omega
        · rw [hnews, List.map_map] at h
          rcases List.mem_map.mp h with ⟨i, hi, rfl⟩
          rw [List.mem_range] at hi
          simp only [Function.comp_apply]
          rw [(hnewprops i).2]
          have : (i : Int) ≤ ((k - 1 : Nat) : Int) := by
            have : i ≤ k - 1 := by omega
            exact_mod_cast this
          omega
    rw [hcons, get_next_table_parsed f0 rest (by rw [← hcons]; exact hallall), hmax]
    have : ((k - 1 : Nat) : Int) = (k : Int) - 1 := by
      have := hk
      omega
    rw [this]
    ring

/-- Witness for C9: formatting 12 round-trips, and appending two formatted
entries to a file holding F00003 advances the next starting ID from 4 to 6. -/
theorem faculty_id_roundtrip_witness :
    pyIntParse (removeChar 'F' (format_faculty_id ((12 : Nat) : Int))) = some ((12 : Nat) : Int) ∧
    get_next_faculty_id (.table (["F00003".toList] ++ (List.range 2).map (fun i : Nat =>
      format_faculty_id (get_next_faculty_id (.table ["F00003".toList]) + (i : Int))))) =
    get_next_faculty_id (.table ["F00003".toList]) + ((2 : Nat) : Int) := by
  constructor
  · exact faculty_id_roundtrip.1 12
  · refine faculty_id_roundtrip.2 ["F00003".toList] 2 ?_ (by decide)
    intro fid hf
    rcases List.mem_cons.mp hf with h | h
    · exact ⟨"00003".toList, by rw [h]; rfl, by decide, by decide⟩
    · simp at h

/-! ### Grant row lemmas -/

theorem assignIds_append (l1 l2 : List (String × Grant)) : ∀ k : Int,
    assignIds k (l1 ++ l2) = assignIds k l1 ++ assignIds (k + (l1.length : Int)) l2 := by
  induction l1 with
  | nil => intro k; simp [assignIds]
  | cons p t ih =>
    intro k
    simp only [List.cons_append, List.append_eq, assignIds, List.length_cons]
    rw [ih (k + 1)]
    push_cast
    rw [show k + 1 + (t.length : Int) = k + ((t.length : Int) + 1) from by ring]

theorem awardeeRows_eq_assignIds (g : Grant) (aws : List String) : ∀ k : Int,
    awardeeRows g k aws = assignIds k (aws.map fun a => (a, g)) := by
  induction aws with
  | nil => intro k; rfl
  | cons a t ih => intro k; simp only [awardeeRows, List.map_cons, assignIds, ih]

theorem saveToCsvRows_eq_assignIds (gs : List Grant) : ∀ k : Int,
    saveToCsvRows k gs = assignIds k (flatExpand gs) := by
  induction gs with
  | nil => intro k; rfl
  | cons g rest ih =>
    intro k
    cases haws : g.awardees with
    | nil =>
      rw [show saveToCsvRows k (g :: rest) = mkGrantRow k g "" :: saveToCsvRows (k + 1) rest
          from by simp [saveToCsvRows, haws]]
      rw [show flatExpand (g :: rest) = ("", g) :: flatExpand rest
          from by simp [flatExpand, haws]]
      simp only [assignIds]
      rw [ih]
    | cons a r2 =>
      rw [show saveToCsvRows k (g :: rest) =
            awardeeRows g k (a :: r2) ++ saveToCsvRows (k + ((a :: r2).length : Int)) rest
          from by simp [saveToCsvRows, haws]]
      rw [show flatExpand (g :: rest) =
            ((a :: r2).map fun x => (x, g)) ++ flatExpand rest
          from by simp [flatExpand, haws]]
      rw [assignIds_append, awardeeRows_eq_assignIds, ih]
      simp

theorem assignIds_fields (l : List (String × Grant)) : ∀ k : Int,
    (assignIds k l).map rowFields = l.map pairFields := by
  induction l with
  | nil => intro k; rfl
  | cons p t ih =>
    intro k
    simp only [assignIds, List.map_cons, ih]
    rfl

theorem assignIds_ids (l : List (String × Grant)) : ∀ k : Int,
    (assignIds k l).map (fun r => r.grant_id) =
      (List.range l.length).map (fun i : Nat => format_grant_id (k + (i : Int))) := by
  induction l with
  | nil => intro k; rfl
  | cons p t ih =>
    intro k
    simp only [assignIds, List.map_cons, List.length_cons, List.range_succ_eq_map,
      List.map_map]
    congr 1
    · simp [mkGrantRow]
    · rw [ih (k + 1)]
      congr 1
      funext i
      simp only [Function.comp_apply]
      congr 1
      push_cast
      ring

/-- C2: `save_to_csv` writes one row per awardee of each grant (one row
with an empty awardee when a grant has none), all rows of a grant carrying
the grant's funding, sponsor, title, date and is_anticipated values; and
the `grant_id` column over the whole output is exactly the consecutive
sequence `G00001, G00002, ...` in row order, so each awardee row of a
multi-awardee grant gets a distinct grant ID. -/
theorem save_to_csv_spec (grants : List Grant) :
    (save_to_csv grants).map rowFields =
      grants.flatMap (fun g =>
        if g.awardees = []
        then [("", g.funding, g.sponsor, g.title, g.date, g.is_anticipated)]
        else g.awardees.map fun a =>
          (a, g.funding, g.sponsor, g.title, g.date, g.is_anticipated)) ∧
    (save_to_csv grants).map (fun r => r.grant_id) =
      (List.range (save_to_csv grants).length).map
        (fun i : Nat => format_grant_id ((i : Int) + 1)) := by
  have h := saveToCsvRows_eq_assignIds grants 1
  constructor
  · rw [save_to_csv, h, assignIds_fields, flatExpand]
    rw [List.map_flatMap]
    congr 1
    funext g
    by_cases haws : g.awardees = [] <;> simp [haws, pairFields]
  · rw [save_to_csv, h, assignIds_ids]
    have hlen : (assignIds 1 (flatExpand grants)).length = (flatExpand grants).length := by
      have := congrArg List.length (assignIds_fields (flatExpand grants) 1)
      simpa using this
    rw [hlen]
    congr 1
    funext i
    rw [add_comm]

/-! ### Faculty entry parsing lemmas -/

theorem selectMain_of_ne_nil (cands : List Str) (h : cands ≠ []) :
    ∃ m, selectMain cands = some m := by
  cases hf : cands.find? (fun s => strContains s "College of".toList) with
  | some s => exact ⟨s, by unfold selectMain; rw [hf]⟩
  | none =>
    cases cands with
    | nil => exact absurd rfl h
    | cons x r => exact ⟨_, by unfold selectMain; rw [hf]; rfl⟩

theorem mainCandidates_ne_nil (sents : List Str) (h : sents ≠ []) :
    mainCandidates sents ≠ [] := by
  unfold mainCandidates
  by_cases hmc : (sents.filter fun s => !hasYear s && decide (2 ≤ countChar ',' s)).isEmpty
  · rw [if_pos hmc]
    cases sents with
    | nil => exact absurd rfl h
    | cons s0 r => simp
  · rw [if_neg hmc]
    intro hcon
    rw [hcon] at hmc
    exact hmc rfl

theorem collegeValue_eq_find (l : List Str) :
    collegeValue l = (l.find? fun f => strContains f "College of".toList).getD [] := by
  induction l with
  | nil => rfl
  | cons f rest ih =>
    by_cases hf : strContains f "College of".toList = true
    · unfold collegeValue findCollege
      rw [if_pos hf, List.find?_cons, hf]
      rfl
    · have hf' : strContains f "College of".toList = false := by simpa using hf
      unfold collegeValue findCollege
      rw [if_neg hf, List.find?_cons, hf']
      rw [← ih]
      unfold collegeValue
      cases findCollege rest <;> rfl

/-- C1: `parse_faculty_entry` returns `none` exactly when the entry has no
non-empty sentence after the period split, or when the sentence it selects
as the main entry has fewer than three comma fields; otherwise the record's
`last_name` and `first_name` are the first two trimmed comma fields of the
main sentence, `full_name` is `last_name ++ ", " ++ first_name`, `college`
is the first field at index 2 or later containing `"College of"` (empty
string if none), and `academic_history` is the `". "`-joined concatenation
of exactly the sentences containing a standalone four-digit number. -/
theorem parse_faculty_entry_spec (e : Str) (departments : List (Str × Str)) :
    (parse_faculty_entry e departments = none ↔
      sentencesOf e = [] ∨
      ∃ m, mainSentenceOf e = some m ∧ ((pySplitOn ',' m).map pyStrip).length < 3) ∧
    (∀ r, parse_faculty_entry e departments = some r →
      ∃ m f0 f1 rest, mainSentenceOf e = some m ∧
        (pySplitOn ',' m).map pyStrip = f0 :: f1 :: rest ∧
        r.last_name = f0 ∧ r.first_name = f1 ∧
        r.full_name = f0 ++ ", ".toList ++ f1 ∧
        r.college = (rest.find? fun f => strContains f "College of".toList).getD [] ∧
        r.academic_history = pyJoin ". ".toList ((sentencesOf e).filter hasYear)) := by
  have hparse : parse_faculty_entry e departments =
      (if (sentencesOf e).isEmpty then none
       else
        match selectMain (mainCandidates (sentencesOf e)) with
        | none => none
        | some m => parseMain (sentencesOf e) departments m) := rfl
  by_cases hs : sentencesOf e = []
  · rw [hparse, hs]
    refine ⟨iff_of_true rfl (Or.inl rfl), ?_⟩
    intro r hr
    exact Option.noConfusion hr
  · obtain ⟨m, hm⟩ := selectMain_of_ne_nil _ (mainCandidates_ne_nil _ hs)
    have hmain : mainSentenceOf e = some m := hm
    have hEmpty : (sentencesOf e).isEmpty = false := by
      cases h' : sentencesOf e with
      | nil => exact absurd h' hs
      | cons a b => rfl
    rw [hparse, hEmpty]
    rw [if_neg (by simp)]
    rw [hm]
    have hred : (match some m with
        | none => none
        | some m => parseMain (sentencesOf e) departments m) =
        parseMain (sentencesOf e) departments m := rfl
    rw [hred]
    unfold parseMain
    cases hfields : (pySplitOn ',' m).map pyStrip with
    | nil =>
      refine ⟨iff_of_true rfl (Or.inr ⟨m, hmain, by rw [hfields]; simp⟩), ?_⟩
      intro r hr
      exact Option.noConfusion hr
    | cons f0 t1 =>
      cases t1 with
      | nil =>
        refine ⟨iff_of_true rfl (Or.inr ⟨m, hmain, by rw [hfields]; simp⟩), ?_⟩
        intro r hr
        exact Option.noConfusion hr
      | cons f1 t2 =>
        cases t2 with
        | nil =>
          refine ⟨iff_of_true rfl (Or.inr ⟨m, hmain, by rw [hfields]; simp⟩), ?_⟩
          intro r hr
          exact Option.noConfusion hr
        | cons f2 rest3 =>
          constructor
          · apply iff_of_false
            · simp
            · rintro (h | ⟨m', hm', hlen⟩)
              · exact hs h
              · rw [hmain] at hm'
                have hmm : m = m' := Option.some.inj hm'
                subst hmm
                rw [hfields] at hlen
                simp at hlen
                omega
          · intro r hr
            refine ⟨m, f0, f1, f2 :: rest3, hmain, hfields, ?_⟩
            have hrr : r = mkFacultyRecord (sentencesOf e) departments f0 f1 (f2 :: rest3) :=
              (Option.some.inj hr).symm
            subst hrr
            refine ⟨rfl, rfl, rfl, ?_, rfl⟩
            show collegeValue (f2 :: rest3) = _
            exact collegeValue_eq_find (f2 :: rest3)

/-- C5: `parse_faculty_entry` terminates on every input with bounded work:
the only iteration that is not a single structural pass over an
already-built list is the sentence-splitting character scan, and with one
fuel unit per input character (plus one) the fuel-indexed variant never
exhausts its fuel and agrees with the total function. -/
theorem parse_faculty_entry_terminates (e : Str) (departments : List (Str × Str)) :
    parse_faculty_entry_fuel (e.length + 1) e departments =
      some (parse_faculty_entry e departments) := by
  have hsplit : ∀ (fuel : Nat) (skip : Bool) (s : Str), s.length < fuel →
      splitGoFuel fuel skip s = some (splitGo skip s) := by
    intro fuel
    induction fuel with
    | zero => intro skip s h; omega
    | succ n ih =>
      intro skip s h
      cases s with
      | nil => rfl
      | cons c t =>
        have hlen : t.length < n := by
          simp only [List.length_cons] at h
          omega
        by_cases h0 : (skip && isPyWS c) = true
        · rw [splitGoFuel, splitGo, if_pos h0, if_pos h0, ih true t hlen]
        · rw [splitGoFuel, splitGo, if_neg h0, if_neg h0]
          by_cases h1 : (c = '.' && wsRunThenUpper t) = true
          · rw [if_pos h1, if_pos h1, ih true t hlen]
            rfl
          · rw [if_neg h1, if_neg h1]
            by_cases h2 : (c = '.' && allWs t) = true
            · rw [if_pos h2, if_pos h2, ih false t hlen]
              rfl
            · rw [if_neg h2, if_neg h2, ih false t hlen]
              rfl
  unfold parse_faculty_entry_fuel parse_faculty_entry reSplitSentencesFuel reSplitSentences
  rw [hsplit (e.length + 1) false e (Nat.lt_succ_self _)]
  rfl

/-- Witness for C1 at the concrete entry `"a, b, c"`, whose parse returns
the record with last name `a`, first name `b` and empty college. -/
theorem parse_faculty_entry_spec_witness :
    ∃ m f0 f1 rest,
      mainSentenceOf "a, b, c".toList = some m ∧
      (pySplitOn ',' m).map pyStrip = f0 :: f1 :: rest ∧
      (⟨"a, b".toList, "b".toList, "a".toList, "c".toList, [], [], [], []⟩ :
        FacultyRecord).last_name = f0 ∧
      (⟨"a, b".toList, "b".toList, "a".toList, "c".toList, [], [], [], []⟩ :
        FacultyRecord).first_name = f1 ∧
      (⟨"a, b".toList, "b".toList, "a".toList, "c".toList, [], [], [], []⟩ :
        FacultyRecord).full_name = f0 ++ ", ".toList ++ f1 ∧
      (⟨"a, b".toList, "b".toList, "a".toList, "c".toList, [], [], [], []⟩ :
        FacultyRecord).college =
        (rest.find? fun f => strContains f "College of".toList).getD [] ∧
      (⟨"a, b".toList, "b".toList, "a".toList, "c".toList, [], [], [], []⟩ :
        FacultyRecord).academic_history =
        pyJoin ". ".toList ((sentencesOf "a, b, c".toList).filter hasYear) :=
  (parse_faculty_entry_spec "a, b, c".toList []).2
    ⟨"a, b".toList, "b".toList, "a".toList, "c".toList, [], [], [], []⟩ (by rfl)

/-! ### `parse_date` lemmas -/

theorem isDigit_toNat {c : Char} (h : isDigitCh c = true) : 48 ≤ c.toNat ∧ c.toNat ≤ 57 := by
  have h1 : '0' ≤ c ∧ c ≤ '9' := by
    simpa [isDigitCh, Bool.and_eq_true, decide_eq_true_eq] using h
  constructor
  · have h2 := h1.1
    simpa [Char.le_def] using h2
  · have h2 := h1.2
    simpa [Char.le_def] using h2

theorem dval_le9 {c : Char} (h : isDigitCh c = true) : dval c ≤ 9 := by
  obtain ⟨h1, h2⟩ := isDigit_toNat h
  unfold dval
  have h0 : '0'.toNat = 48 := rfl
  rw [h0]
  omega

theorem digitsVal_foldl_lt (s : Str) : ∀ acc : Nat, (∀ c ∈ s, isDigitCh c = true) →
    s.foldl (fun a c => 10 * a + dval c) acc < (acc + 1) * 10 ^ s.length := by
  induction s with
  | nil => intro acc _; simp
  | cons c t ih =>
    intro acc h
    rw [List.foldl_cons]
    simp only [List.length_cons]
    have hd : dval c ≤ 9 := dval_le9 (h c (List.mem_cons_self _ _))
    calc t.foldl (fun a c => 10 * a + dval c) (10 * acc + dval c)
        < (10 * acc + dval c + 1) * 10 ^ t.length :=
          ih (10 * acc + dval c) (fun x hx => h x (List.mem_cons_of_mem _ hx))
      _ ≤ (acc + 1) * 10 ^ (t.length + 1) := by
          rw [pow_succ]
          calc (10 * acc + dval c + 1) * 10 ^ t.length
              ≤ ((acc + 1) * 10) * 10 ^ t.length := Nat.mul_le_mul_right _ (by omega)
            _ = (acc + 1) * (10 ^ t.length * 10) := by ring

theorem digitsVal_lt (s : Str) (h : ∀ c ∈ s, isDigitCh c = true) :
    digitsVal s < 10 ^ s.length := by
  have h2 := digitsVal_foldl_lt s 0 h
  simpa [digitsVal] using h2

theorem matchYearEnd_lt {s : Str} {y : Nat} (h : matchYearEnd s = some y) : y < 10000 := by
  cases s with
  | nil => exact absurd h (by simp [matchYearEnd])
  | cons c t =>
    rw [matchYearEnd] at h
    by_cases hws : isPyWS c = true
    · rw [if_pos hws] at h
      by_cases hc : (((c :: t).dropWhile isPyWS).length = 4 &&
          ((c :: t).dropWhile isPyWS).all isDigitCh) = true
      · rw [if_pos hc] at h
        rw [Bool.and_eq_true] at hc
        obtain ⟨h4, hall⟩ := hc
        have h4' : ((c :: t).dropWhile isPyWS).length = 4 := by simpa using h4
        have hlt := digitsVal_lt ((c :: t).dropWhile isPyWS)
          (fun x hx => List.all_eq_true.mp hall x hx)
        rw [h4'] at hlt
        have hy : y = digitsVal ((c :: t).dropWhile isPyWS) := (Option.some.inj h).symm
        subst hy
        simpa using hlt
      · rw [if_neg hc] at h
        exact absurd h (by simp)
    · rw [if_neg hws] at h
      exact absurd h (by simp)

theorem strptime_BdY_year_lt {s : Str} {y m d : Nat}
    (h : strptime_BdY s = some (y, m, d)) : y < 10000 := by
  unfold strptime_BdY at h
  rcases Option.bind_eq_some.mp h with ⟨mr, hmr, h2⟩
  rcases Option.bind_eq_some.mp h2 with ⟨r2, hr2, h3⟩
  rcases Option.bind_eq_some.mp h3 with ⟨dr, hdr, h4⟩
  rcases Option.bind_eq_some.mp h4 with ⟨y2, hy2, h5⟩
  by_cases hcond : (1 ≤ y2 && 1 ≤ dr.1 && dr.1 ≤ daysInMonth y2 mr.1) = true
  · rw [if_pos hcond] at h5
    have heq := Option.some.inj h5
    have hy : y2 = y := congrArg Prod.fst heq
    rw [← hy]
    exact matchYearEnd_lt hy2
  · rw [if_neg hcond] at h5
    exact absurd h5 (by simp)

theorem natDigitsLE_length_four {y : Nat} (h1 : 1000 ≤ y) (h2 : y < 10000) :
    (natDigitsLE y).length = 4 := by
  rw [natDigitsLE_nonzero y (by omega)]
  rw [natDigitsLE_nonzero (y / 10) (by omega)]
  rw [natDigitsLE_nonzero (y / 10 / 10) (by omega)]
  rw [natDigitsLE_nonzero (y / 10 / 10 / 10) (by omega)]
  have h0 : y / 10 / 10 / 10 / 10 = 0 := by omega
  rw [h0, show natDigitsLE 0 = [] from rfl]
  rfl

theorem natToStr_length_four {y : Nat} (h1 : 1000 ≤ y) (h2 : y < 10000) :
    (natToStr y).length = 4 := by
  unfold natToStr
  rw [if_neg (by omega)]
  simp [natDigitsLE_length_four h1 h2]

theorem isoYMD_eq_formatYMD {y : Nat} (m d : Nat) (h1 : 1000 ≤ y) (h2 : y < 10000) :
    isoYMD y m d = formatYMD y m d := by
  unfold isoYMD formatYMD padNat
  rw [natToStr_length_four h1 h2]
  simp

/-- C6 counterexample: for input `"January 2, 0123"` the `strptime` call
succeeds with year 123, but `strftime("%Y-%m-%d")` (glibc `%Y`, no zero
padding) produces `"123-01-02"`, which is neither the ISO `YYYY-MM-DD`
form `"0123-01-02"` the claim promises nor the stripped input. -/
theorem parse_date_claim_counterexample :
    strptime_BdY (pyStrip "January 2, 0123".toList) = some (123, 1, 2) ∧
    parse_date "January 2, 0123".toList = "123-01-02".toList ∧
    parse_date "January 2, 0123".toList ≠ isoYMD 123 1 2 ∧
    parse_date "January 2, 0123".toList ≠ pyStrip "January 2, 0123".toList := by
  refine ⟨by decide, by decide, by decide, by decide⟩

/-- C6 (amended): `parse_date` never raises — it is a total function: when
the stripped input matches `"%B %d, %Y"` (English month name,
case-insensitive, valid calendar day, four-digit year at least 1) it
returns the date as `%Y-%m-%d` with an unpadded year and two-digit month
and day, which coincides with ISO `YYYY-MM-DD` whenever the year is at
least 1000; for every other input it returns the stripped input
unchanged. -/
theorem parse_date_spec (s : Str) :
    (∀ y m d, strptime_BdY (pyStrip s) = some (y, m, d) →
      parse_date s = formatYMD y m d ∧
      (1000 ≤ y → parse_date s = isoYMD y m d)) ∧
    (strptime_BdY (pyStrip s) = none → parse_date s = pyStrip s) := by
  constructor
  · intro y m d h
    have hp : parse_date s = formatYMD y m d := by
      unfold parse_date
      rw [h]
    refine ⟨hp, fun h1000 => ?_⟩
    rw [hp, isoYMD_eq_formatYMD m d h1000 (strptime_BdY_year_lt h)]
  · intro h
    unfold parse_date
    rw [h]

/-- Witness for C6 at `"January 12, 2026"` (ISO output) and at a
non-matching input (returned stripped and unchanged). -/
theorem parse_date_spec_witness :
    parse_date "January 12, 2026".toList = formatYMD 2026 1 12 ∧
    parse_date "January 12, 2026".toList = isoYMD 2026 1 12 ∧
    parse_date " not a date ".toList = pyStrip " not a date ".toList := by
  have h1 := (parse_date_spec "January 12, 2026".toList).1 2026 1 12 (by decide)
  exact ⟨h1.1, h1.2 (by decide), (parse_date_spec " not a date ".toList).2 (by decide)⟩

/-! ### `parse_funding_amount` lemmas -/

theorem digit_ne_commaDot {c : Char} (h : isDigitCh c = true) : c ≠ ',' ∧ c ≠ '.' := by
  constructor
  · rintro rfl; exact absurd h (by decide)
  · rintro rfl; exact absurd h (by decide)

theorem takeWhile_append_all (p : Char → Bool) (l1 l2 : Str)
    (h1 : ∀ c ∈ l1, p c = true) :
    (l1 ++ l2).takeWhile p = l1 ++ l2.takeWhile p := by
  induction l1 with
  | nil => simp
  | cons a t ih =>
    rw [List.cons_append, List.takeWhile_cons, if_pos (h1 a (List.mem_cons_self _ _)),
      ih (fun c hc => h1 c (List.mem_cons_of_mem _ hc))]
    rfl

theorem containsAnticipated_iff (s : Str) :
    containsAnticipated s = true ↔
      ∃ i, "anticipated".toList.isPrefixOf (pyLower (s.drop i)) = true := by
  unfold containsAnticipated strContains
  rw [List.any_eq_true]
  constructor
  · rintro ⟨i, _, hp⟩
    refine ⟨i, ?_⟩
    unfold pyLower at hp ⊢
    rw [← List.map_drop] at hp
    exact hp
  · rintro ⟨i, hp⟩
    have hibound : i ≤ s.length := by
      by_contra hgt
      have hdrop : s.drop i = [] := List.drop_eq_nil_of_le (by omega)
      rw [hdrop] at hp
      exact absurd hp (by decide)
    refine ⟨i, ?_, ?_⟩
    · rw [List.mem_range]
      have : (pyLower s).length = s.length := List.length_map _ _
      omega
    · unfold pyLower at hp ⊢
      rw [← List.map_drop]
      exact hp

theorem matchSuffix_some {g1 t3 : Str} {g : Str} {mc : Option Char}
    (h : matchSuffix g1 t3 = some (g, mc)) : g = g1 := by
  unfold matchSuffix at h
  exact ((Prod.mk.injEq _ _ _ _).mp (Option.some.inj h).symm).1

theorem numGroup_shape (run t2 : Str) :
    (numGroup run t2).1 = run ∨
    ∃ ds, (numGroup run t2).1 = run ++ '.' :: ds ∧ ds ≠ [] ∧
      ∀ c ∈ ds, isDigitCh c = true := by
  unfold numGroup
  split
  · rename_i u
    by_cases hds : (u.takeWhile isDigitCh).isEmpty = true
    · rw [if_pos hds]
      exact Or.inl rfl
    · rw [if_neg hds]
      refine Or.inr ⟨u.takeWhile isDigitCh, rfl, ?_, fun c hc => List.mem_takeWhile_imp hc⟩
      intro hcon
      rw [hcon] at hds
      exact hds rfl
  · exact Or.inl rfl

theorem matchDollar_shape {s g1 : Str} {mc : Option Char}
    (h : matchDollar s = some (g1, mc)) :
    ∃ run frac, g1 = run ++ frac ∧ run ≠ [] ∧ (∀ c ∈ run, isDigitComma c = true) ∧
      (frac = [] ∨ ∃ ds, frac = '.' :: ds ∧ ds ≠ [] ∧ ∀ c ∈ ds, isDigitCh c = true) := by
  cases s with
  | nil => exact absurd h (by simp [matchDollar])
  | cons c t =>
    rw [matchDollar] at h
    by_cases hc : c = '$'
    · rw [if_pos hc] at h
      by_cases hrun : ((t.dropWhile isPyWS).takeWhile isDigitComma).isEmpty = true
      · rw [if_pos hrun] at h
        exact absurd h (by simp)
      · rw [if_neg hrun] at h
        simp only [] at h
        have hg := matchSuffix_some h
        have hne : (t.dropWhile isPyWS).takeWhile isDigitComma ≠ [] := by
          intro hcon
          rw [hcon] at hrun
          exact hrun rfl
        have hall : ∀ c ∈ (t.dropWhile isPyWS).takeWhile isDigitComma,
            isDigitComma c = true := fun c hc => List.mem_takeWhile_imp hc
        rcases numGroup_shape ((t.dropWhile isPyWS).takeWhile isDigitComma)
            ((t.dropWhile isPyWS).drop
              ((t.dropWhile isPyWS).takeWhile isDigitComma).length) with hng | ⟨ds, hng, hds, hdig⟩
        · exact ⟨_, [], by rw [hg, hng, List.append_nil], hne, hall, Or.inl rfl⟩
        · exact ⟨_, '.' :: ds, by rw [hg, hng], hne, hall, Or.inr ⟨ds, rfl, hds, hdig⟩⟩
    · rw [if_neg hc] at h
      exact absurd h (by simp)

theorem takeWhile_eq_self_of (p : Char → Bool) (l : Str) (h : ∀ c ∈ l, p c = true) :
    l.takeWhile p = l := by
  induction l with
  | nil => rfl
  | cons a t ih =>
    rw [List.takeWhile_cons, if_pos (h a (List.mem_cons_self _ _)),
      ih (fun c hc => h c (List.mem_cons_of_mem _ hc))]

theorem ratOfCleaned_digits_some (l : Str) (hne : l ≠ []) (h : ∀ c ∈ l, isDigitCh c = true) :
    ratOfCleaned l = some ((digitsVal l : Nat) : ℚ) := by
  unfold ratOfCleaned
  rw [if_neg (by simpa [List.isEmpty_iff] using hne)]
  rw [takeWhile_eq_self_of _ _ h, List.drop_length]

theorem ratOfCleaned_frac_some (df ds : Str) (hdf : ∀ c ∈ df, isDigitCh c = true) :
    ratOfCleaned (df ++ '.' :: ds) =
      some (((digitsVal df : Nat) : ℚ) +
        ((digitsVal ds : Nat) : ℚ) / (10 : ℚ) ^ ds.length) := by
  unfold ratOfCleaned
  rw [if_neg (by simp [List.isEmpty_iff])]
  rw [takeWhile_append_all _ _ _ hdf, List.takeWhile_cons, if_neg (by decide),
    List.append_nil, List.drop_left]
  rfl

theorem removeComma_digits (l : Str) (h : ∀ c ∈ l, isDigitComma c = true) :
    ∀ c ∈ removeChar ',' l, isDigitCh c = true := by
  intro c hc
  rw [removeChar, List.mem_filter] at hc
  have hdc := h c hc.1
  have hor : isDigitCh c = true ∨ c = ',' := by simpa [isDigitComma] using hdc
  rcases hor with h1 | h1
  · exact h1
  · exact absurd h1 (by simpa using hc.2)

theorem removeComma_nil_iff (l : Str) (h : ∀ c ∈ l, isDigitComma c = true) :
    (removeChar ',' l = [] ↔ ∀ c ∈ l, isDigitCh c = false) := by
  rw [removeChar, List.filter_eq_nil_iff]
  constructor
  · intro hall c hc
    have h1 := hall c hc
    have hceq : c = ',' := by simpa using h1
    subst hceq
    decide
  · intro hall c hc
    have hdc := h c hc
    have hor : isDigitCh c = true ∨ c = ',' := by simpa [isDigitComma] using hdc
    rcases hor with h1 | h1
    · rw [hall c hc] at h1
      exact absurd h1 (by simp)
    · simp [h1]

theorem ratOfCleaned_of_matchDollar {s g1 : Str} {mc : Option Char}
    (h : matchDollar s = some (g1, mc)) :
    (ratOfCleaned (removeChar ',' g1) = none ↔ ∀ c ∈ g1, isDigitCh c = false) := by
  obtain ⟨run, frac, hg1, hrun_ne, hrun, hfrac⟩ := matchDollar_shape h
  subst hg1
  rcases hfrac with hfrac | ⟨ds, hfrac, hds_ne, hds⟩
  · subst hfrac
    rw [List.append_nil]
    constructor
    · intro hnone c hcm
      by_contra hdig
      rw [Bool.not_eq_false] at hdig
      have hne2 : removeChar ',' run ≠ [] := by
        intro hcon
        have h2 := (removeComma_nil_iff run hrun).mp hcon c hcm
        rw [hdig] at h2
        exact absurd h2 (by simp)
      rw [ratOfCleaned_digits_some _ hne2 (removeComma_digits run hrun)] at hnone
      exact absurd hnone (by simp)
    · intro hall
      have hnil : removeChar ',' run = [] := (removeComma_nil_iff run hrun).mpr hall
      unfold ratOfCleaned
      rw [if_pos (by simp [hnil])]
  · subst hfrac
    have hclean : removeChar ',' (run ++ '.' :: ds) = removeChar ',' run ++ '.' :: ds := by
      unfold removeChar
      rw [List.filter_append]
      congr 1
      rw [List.filter_cons, if_pos (by decide)]
      congr 1
      exact List.filter_eq_self.mpr fun a ha => by
        simpa using (digit_ne_commaDot (hds a ha)).1
    constructor
    · intro hnone
      exfalso
      rw [hclean, ratOfCleaned_frac_some _ ds (removeComma_digits run hrun)] at hnone
      exact absurd hnone (by simp)
    · intro hall
      exfalso
      cases ds with
      | nil => exact absurd rfl hds_ne
      | cons d dt =>
        have hd := hds d (List.mem_cons_self _ _)
        have h2 := hall d
          (List.mem_append_right _ (List.mem_cons_of_mem _ (List.mem_cons_self _ _)))
        rw [hd] at h2
        exact absurd h2 (by simp)

theorem searchDollar_matchDollar {s : Str} {r : Str × Option Char}
    (h : searchDollar s = some r) : ∃ i, matchDollar (s.drop i) = some r := by
  induction s with
  | nil => exact absurd h (by simp [searchDollar])
  | cons c t ih =>
    rw [searchDollar] at h
    cases hm : matchDollar (c :: t) with
    | some r2 =>
      rw [hm] at h
      exact ⟨0, by rw [List.drop_zero, hm, Option.some.inj h]⟩
    | none =>
      rw [hm] at h
      obtain ⟨i, hi⟩ := ih h
      exact ⟨i + 1, by simpa using hi⟩

theorem ratOfCleaned_none_iff {s g1 : Str} {mc : Option Char}
    (h : searchDollar s = some (g1, mc)) :
    (ratOfCleaned (removeChar ',' g1) = none ↔ ∀ c ∈ g1, isDigitCh c = false) := by
  obtain ⟨i, hi⟩ := searchDollar_matchDollar h
  exact ratOfCleaned_of_matchDollar hi

theorem parse_funding_ok_snd {s : Str} {p : Option Int × Bool}
    (hp : parse_funding_amount s = .ok p) : p.2 = containsAnticipated s := by
  cases hs : searchDollar s with
  | none =>
    simp only [parse_funding_amount, hs, Except.ok.injEq] at hp
    rw [← hp]
  | some gm =>
    cases hr : ratOfCleaned (removeChar ',' gm.1) with
    | none =>
      simp only [parse_funding_amount, hs, hr, Except.ok.injEq] at hp
      rw [← hp]
    | some q =>
      cases hf : floatPipeline q gm.2 with
      | none =>
        simp only [parse_funding_amount, hs, hr, hf] at hp
        exact Except.noConfusion hp
      | some v =>
        simp only [parse_funding_amount, hs, hr, hf, Except.ok.injEq] at hp
        rw [← hp]

/-- C3 (amended): whenever `parse_funding_amount` returns, the second
component is `True` iff the string contains `"anticipated"`
case-insensitively; the first component is `None` iff the dollar-amount
regex has no match or the matched group holds no digit; on a match
whose text parses, the first component is the matched number read as an
IEEE-754 double, multiplied in double arithmetic by 1,000,000 for an
`M`/`m` suffix or by 1,000 for a `K`/`k` suffix, truncated to an integer;
and when that double pipeline yields a non-finite value, `int()` raises
`OverflowError`, which the `except ValueError` handler does not catch. -/
theorem parse_funding_amount_spec (s : Str) :
    (∀ p, parse_funding_amount s = .ok p →
      (p.2 = true ↔ ∃ i, "anticipated".toList.isPrefixOf (pyLower (s.drop i)) = true)) ∧
    (∀ p, parse_funding_amount s = .ok p →
      (p.1 = none ↔
        searchDollar s = none ∨
        ∃ g1 mc2, searchDollar s = some (g1, mc2) ∧ ∀ c ∈ g1, isDigitCh c = false)) ∧
    (∀ g1 mc q v, searchDollar s = some (g1, mc) →
      ratOfCleaned (removeChar ',' g1) = some q →
      floatPipeline q mc = some v →
      parse_funding_amount s = .ok (some ⌊v⌋, containsAnticipated s)) ∧
    (∀ g1 mc q, searchDollar s = some (g1, mc) →
      ratOfCleaned (removeChar ',' g1) = some q →
      floatPipeline q mc = none →
      parse_funding_amount s = .error ()) := by
  refine ⟨?_, ?_, ?_, ?_⟩
  · intro p hp
    rw [parse_funding_ok_snd hp]
    exact containsAnticipated_iff s
  · intro p hp
    cases hs : searchDollar s with
    | none =>
      simp only [parse_funding_amount, hs, Except.ok.injEq] at hp
      rw [← hp]
      exact iff_of_true rfl (Or.inl rfl)
    | some gm =>
      cases hr : ratOfCleaned (removeChar ',' gm.1) with
      | none =>
        simp only [parse_funding_amount, hs, hr, Except.ok.injEq] at hp
        rw [← hp]
        apply iff_of_true rfl
        refine Or.inr ⟨gm.1, gm.2, rfl, ?_⟩
        exact (ratOfCleaned_none_iff (show searchDollar s = some (gm.1, gm.2) by
          rw [hs])).mp hr
      | some q =>
        cases hf : floatPipeline q gm.2 with
        | none =>
          simp only [parse_funding_amount, hs, hr, hf] at hp
          exact Except.noConfusion hp
        | some v =>
          simp only [parse_funding_amount, hs, hr, hf, Except.ok.injEq] at hp
          rw [← hp]
          apply iff_of_false (by simp)
          rintro (hnone | ⟨g1', mc', hsd, hall⟩)
          · exact Option.noConfusion hnone
          · have hgm : gm = (g1', mc') := Option.some.inj hsd
            have hgm1 : gm.1 = g1' := by rw [hgm]
            rw [← hgm1] at hall
            have hnone2 := (ratOfCleaned_none_iff
              (show searchDollar s = some (gm.1, gm.2) by rw [hs])).mpr hall
            rw [hnone2] at hr
            exact Option.noConfusion hr
  · intro g1 mc q v hs hr hf
    simp only [parse_funding_amount, hs, hr, hf]
  · intro g1 mc q hs hr hf
    simp only [parse_funding_amount, hs, hr, hf]

set_option maxRecDepth 10000 in
unseal Rat.add Rat.mul Rat.sub Rat.inv in
/-- C3 counterexample: for `"$9007199254740993"` (no commas, no suffix),
the claim's value — the matched number truncated to an integer — is
9007199254740993, but the code converts through a double, which rounds
9007199254740993 (= 2^53 + 1) to 9007199254740992, and returns that. -/
theorem parse_funding_amount_claim_counterexample :
    parse_funding_amount "$9007199254740993".toList =
      .ok (some 9007199254740992, false) ∧
    searchDollar "$9007199254740993".toList =
      some ("9007199254740993".toList, none) ∧
    ratOfCleaned (removeChar ',' "9007199254740993".toList) =
      some (9007199254740993 : ℚ) ∧
    (9007199254740992 : Int) ≠ ⌊(9007199254740993 : ℚ)⌋ := by
  exact ⟨by decide, by decide, by decide, by decide⟩

set_option maxRecDepth 40000 in
unseal Rat.add Rat.mul Rat.sub Rat.inv in
/-- Witness for C3 at `"Anticipated: $2K"` (anticipated is detected and
the value is 2 doubled-and-scaled to 2000) and at `'$'` followed by 309
nines, which overflows the double to infinity so that `int()` raises an
uncaught `OverflowError`. -/
theorem parse_funding_amount_spec_witness :
    (((some (2000 : Int), true) : Option Int × Bool).2 = true ↔
      ∃ i, "anticipated".toList.isPrefixOf
        (pyLower ("Anticipated: $2K".toList.drop i)) = true) ∧
    parse_funding_amount "Anticipated: $2K".toList =
      .ok (some ⌊(2000 : ℚ)⌋, containsAnticipated "Anticipated: $2K".toList) ∧
    parse_funding_amount ('$' :: List.replicate 309 '9') = .error () := by
  have h := parse_funding_amount_spec "Anticipated: $2K".toList
  have hov := parse_funding_amount_spec ('$' :: List.replicate 309 '9')
  exact ⟨h.1 (some 2000, true) (by decide),
    h.2.2.1 "2".toList (some 'K') 2 2000 (by decide) (by decide) (by decide),
    hov.2.2.2 (List.replicate 309 '9') none
      (999999999999999999999999999999999999999999999999999999999999999999999999999999999999999999999999999999999999999999999999999999999999999999999999999999999999999999999999999999999999999999999999999999999999999999999999999999999999999999999999999999999999999999999999999999999999999999999999999999999999999999999 : ℚ) (by decide) (by decide) (by decide)⟩
